/-
Verification of the core algorithms of the DeepDive AI branching-chat canvas.

The development shallowly embeds the data model (types.ts), the context
linearizer (geminiService.ts: buildHistoryForColumn), the tree layout
engine (App.tsx: calculateLayout), the viewport operations
(App.tsx: handleWheel, handleNodeDragStart, the node branch of the
mousemove handler, the header zoom buttons) and the tree-store mutations
(App.tsx: handleGlobalSubmit, handleBranch, handleCloseColumn,
updateLastMessage; MessageBubble.tsx: handleMouseUp / handleDeepDive).

Numbers are modelled as exact rationals (the source computes with JS
doubles; the claims under verification are stated over exact arithmetic).
JS `===` is modelled with decidable equality; JS truthiness of nullable
strings (null and "" are falsy) is modelled explicitly.  The two source
recursions that walk the column tree (the parent-chain `while` loop and
the child recursion of `calculateLayout` / `getDescendants`) terminate in
the source only on acyclic data; they are embedded with an explicit fuel
of `columns.length + 1`, which is never exhausted on the acyclic inputs
the theorems quantify over.
-/
import Mathlib

namespace DeepDive

/-- Message, from types.ts.  `role` is one of "user" / "model". -/
structure Message where
  id : String
  role : String
  text : String
  timestamp : Nat
deriving DecidableEq, Repr

/-- Column (one conversation node), from types.ts plus the `isCollapsed`
field the canvas version of App.tsx adds. -/
structure Column where
  id : String
  title : String
  parentId : Option String
  parentMessageId : Option String
  contextSnippet : Option String
  messages : List Message
  inputValue : String
  isThinking : Bool
  isCollapsed : Bool
deriving DecidableEq, Repr

/-- JS truthiness of a nullable string: `null` and `""` are falsy. -/
def jsTruthy : Option String → Bool
  | none => false
  | some s => !decide (s = "")

/-- JS `String.prototype.trim()`: drop leading and trailing whitespace.
(Modelled structurally over the character list so that it evaluates.) -/
def strTrim (s : String) : String :=
  ⟨((s.data.dropWhile Char.isWhitespace).reverse.dropWhile Char.isWhitespace).reverse⟩

/-- The lookup `columns.find(c => c.id === id)` used throughout App.tsx
and geminiService.ts. -/
def findColumn (columns : List Column) (cid : String) : Option Column :=
  columns.find? (fun c => decide (c.id = cid))

/-- The helper `columns.filter(c => c.parentId === parentId)` of
calculateLayout (and the identical filter of handleCloseColumn). -/
def getChildren (columns : List Column) (parentId : Option String) : List Column :=
  columns.filter (fun c => decide (c.parentId = parentId))

/- ------------------------------------------------------------------
C8: updateLastMessage (App.tsx)
------------------------------------------------------------------ -/

/-- updateLastMessage from App.tsx: append a streamed text chunk to the
last message of the addressed column provided that last message has the
model role; all other columns are mapped to themselves. -/
def updateLastMessage (columns : List Column) (columnId : String) (textChunk : String) :
    List Column :=
  columns.map (fun col =>
    if col.id = columnId then
      match col.messages.getLast? with
      | some lastMsg =>
        if lastMsg.role = "model" then
          { col with messages :=
              col.messages.dropLast ++ [{ lastMsg with text := lastMsg.text ++ textChunk }] }
        else col
      | none => col
    else col)

/- ------------------------------------------------------------------
C6: handleGlobalSubmit (App.tsx) and the helpers it calls
------------------------------------------------------------------ -/

/-- addMessageToColumn from App.tsx, including the root-title update on
the first user message (`!col.parentId` is JS truthiness). -/
def addMessageToColumn (columns : List Column) (columnId : String) (message : Message) :
    List Column :=
  columns.map (fun col =>
    if col.id = columnId then
      { col with
        messages := col.messages ++ [message],
        title :=
          if col.messages.length = 0 ∧ message.role = "user" ∧ jsTruthy col.parentId = false then
            (if 30 < message.text.length then message.text.take 30 ++ "..." else message.text)
          else col.title }
    else col)

/-- setThinking from App.tsx. -/
def setThinking (columns : List Column) (columnId : String) (b : Bool) : List Column :=
  columns.map (fun col => if col.id = columnId then { col with isThinking := b } else col)

/-- handleToggleCollapse from App.tsx. -/
def handleToggleCollapse (columns : List Column) (columnId : String) : List Column :=
  columns.map (fun col =>
    if col.id = columnId then { col with isCollapsed := !col.isCollapsed } else col)

/-- The conversation-state part of App.tsx state touched by a submit. -/
structure SubmitState where
  columns : List Column
  globalInput : String
  selectedColumnId : String
deriving Repr

/-- handleGlobalSubmit from App.tsx.  The guards mirror the source:
empty (trimmed) input, falsy selection id, missing target column, and a
target with `isThinking` set all return the state unchanged.  Otherwise
the user message is appended, the thinking flag set, a collapsed target
expanded, and the empty model placeholder appended (the source appends
the placeholder inside a 100 ms timeout before streaming starts; the
streamed chunks themselves arrive later through updateLastMessage and
are outside this transition). -/
def handleGlobalSubmit (s : SubmitState) (userMsgId modelMsgId : String) (now : Nat) :
    SubmitState :=
  if strTrim s.globalInput = "" then s
  else if s.selectedColumnId = "" then s
  else
    match findColumn s.columns s.selectedColumnId with
    | none => s
    | some targetCol =>
      if targetCol.isThinking then s
      else
        let text := s.globalInput
        let userMsg : Message := ⟨userMsgId, "user", text, now⟩
        let cols1 := addMessageToColumn s.columns s.selectedColumnId userMsg
        let cols2 := setThinking cols1 s.selectedColumnId true
        let cols3 :=
          if targetCol.isCollapsed then handleToggleCollapse cols2 s.selectedColumnId else cols2
        let modelMsg : Message := ⟨modelMsgId, "model", "", now⟩
        let cols4 := addMessageToColumn cols3 s.selectedColumnId modelMsg
        { columns := cols4, globalInput := "", selectedColumnId := s.selectedColumnId }

/- ------------------------------------------------------------------
C7: handleBranch (App.tsx) and the selection guard (MessageBubble.tsx)
------------------------------------------------------------------ -/

/-- handleBranch from App.tsx, restricted to its effect on the column
list: a new column is appended unconditionally (the source performs no
validation of the span or of the source message id).  The fresh uuid is
a parameter; the auto-sent first message is a later asynchronous effect
on the new column's message list, not on column creation. -/
def handleBranch (columns : List Column) (newColId : String)
    (sourceColumnId sourceMessageId selectedText : String)
    (customPrompt : Option String) : List Column :=
  let title :=
    if jsTruthy customPrompt then customPrompt.getD ""
    else selectedText.take 20 ++ "..."
  let newColumn : Column :=
    { id := newColId, title := title, parentId := some sourceColumnId,
      parentMessageId := some sourceMessageId, contextSnippet := some selectedText,
      messages := [], inputValue := "", isThinking := false, isCollapsed := false }
  columns ++ [newColumn]

/-- The text-selection guard of MessageBubble.tsx handleMouseUp: the
selection tooltip state is populated only when the trimmed selected text
is nonempty and the selection anchor lies inside the bubble; a fresh
gesture starts from a cleared selection (the document-level mousedown
listener clears it), so a failed guard leaves no selection. -/
def handleMouseUpSelection (rawSelection : String) (anchorInBubble : Bool) : Option String :=
  let text := strTrim rawSelection
  if 0 < text.length ∧ anchorInBubble then some text else none

/-- The deep-dive pipeline: handleDeepDive in MessageBubble.tsx fires
onBranch only when a selection tooltip exists, so the column list is
touched only through handleBranch with the guarded selection text. -/
def deepDiveBranch (columns : List Column) (newColId : String)
    (sourceColumnId messageId : String) (rawSelection : String) (anchorInBubble : Bool) :
    List Column :=
  match handleMouseUpSelection rawSelection anchorInBubble with
  | none => columns
  | some text => handleBranch columns newColId sourceColumnId messageId text none

/- ------------------------------------------------------------------
C3: handleWheel (App.tsx)
------------------------------------------------------------------ -/

/-- The pan/scale part of the viewport state. -/
structure WheelState where
  panX : ℚ
  panY : ℚ
  scale : ℚ
deriving DecidableEq, Repr

/-- handleWheel from App.tsx: clamp the new scale to [0.1, 3] and
recompute pan so the world point under the pointer is preserved. -/
def handleWheel (hasStarted : Bool) (s : WheelState) (clientX clientY deltaY : ℚ) :
    WheelState :=
  if hasStarted = false then s
  else
    let newScale := min (max (1/10) (s.scale - deltaY * (1/1000))) 3
    let worldX := (clientX - s.panX) / s.scale
    let worldY := (clientY - s.panY) / s.scale
    { panX := clientX - worldX * newScale,
      panY := clientY - worldY * newScale,
      scale := newScale }

/- ------------------------------------------------------------------
C4: handleNodeDragStart and the node branch of handleMouseMove (App.tsx)
------------------------------------------------------------------ -/

/-- The dragRef payload recorded by handleNodeDragStart. -/
structure DragRefNode where
  startX : ℚ
  startY : ℚ
  targetId : String
  initialNodeOffset : ℚ × ℚ
deriving Repr

/-- handleNodeDragStart from App.tsx: record the pointer position and
the node's current manual offset (defaulting to (0,0)). -/
def handleNodeDragStart (nodeOffsets : String → Option (ℚ × ℚ)) (columnId : String)
    (clientX clientY : ℚ) : DragRefNode :=
  { startX := clientX, startY := clientY, targetId := columnId,
    initialNodeOffset := (nodeOffsets columnId).getD (0, 0) }

/-- The `type === 'node'` branch of the window mousemove handler in
App.tsx: the screen-space delta since drag start is divided by the
current scale and added to the offset recorded at drag start; the result
overwrites the target's entry of the offset map. -/
def handleMouseMoveNode (scale : ℚ) (drag : DragRefNode)
    (nodeOffsets : String → Option (ℚ × ℚ)) (clientX clientY : ℚ) :
    String → Option (ℚ × ℚ) :=
  let dx := clientX - drag.startX
  let dy := clientY - drag.startY
  let worldDx := dx / scale
  let worldDy := dy / scale
  let newOffset := (drag.initialNodeOffset.1 + worldDx, drag.initialNodeOffset.2 + worldDy)
  fun id => if id = drag.targetId then some newOffset else nodeOffsets id

/- ------------------------------------------------------------------
C10: the header zoom buttons (App.tsx, canvas-view header)
------------------------------------------------------------------ -/

/-- The canvas view state the zoom buttons can see. -/
structure CanvasView where
  panX : ℚ
  panY : ℚ
  scale : ℚ
  nodeOffsets : String → Option (ℚ × ℚ)

/-- The header "-" button: `setScale(s => Math.max(0.1, s - 0.1))`;
nothing else is touched. -/
def zoomOutClick (v : CanvasView) : CanvasView :=
  { v with scale := max (1/10) (v.scale - 1/10) }

/-- The header "+" button: `setScale(s => Math.min(3, s + 0.1))`;
nothing else is touched. -/
def zoomInClick (v : CanvasView) : CanvasView :=
  { v with scale := min 3 (v.scale + 1/10) }

/- ------------------------------------------------------------------
C1: buildHistoryForColumn (geminiService.ts)
------------------------------------------------------------------ -/

/-- One entry of the linearized history (role and text; the source wraps
the text in a one-element `parts` array). -/
structure HistoryEntry where
  role : String
  text : String
deriving DecidableEq, Repr

/-- The upward parent-chain walk of buildHistoryForColumn (the `while
(currentId)` loop), in visit order (target first), with explicit fuel;
the source loop terminates only on acyclic data. -/
def upChainOf (columns : List Column) : Nat → Option String → List Column
  | 0 => fun _ => []
  | fuel+1 => fun cid? =>
    match cid? with
    | none => []
    | some cid =>
      match findColumn columns cid with
      | none => []
      | some col => col :: upChainOf columns fuel col.parentId

/-- The path from root to target built by the loop's `path.unshift(col)`:
the reverse of the visit order, with fuel `columns.length + 1` (enough
for every resolvable chain, whose columns are pairwise distinct). -/
def pathToRoot (columns : List Column) (targetColumnId : String) : List Column :=
  (upChainOf columns (columns.length + 1) (some targetColumnId)).reverse

/-- Specification predicate: `q` (listed target first) is a fully
resolved parent chain — every column of the chain is the one its id
looks up to, every link's `parentId` names the next column, and the last
column is a root. -/
def upChainOk (columns : List Column) : List Column → Bool
  | [] => false
  | [c] => decide (findColumn columns c.id = some c) && decide (c.parentId = none)
  | c :: p :: rest =>
    decide (findColumn columns c.id = some c) && decide (c.parentId = some p.id) &&
    upChainOk columns (p :: rest)

/-- Ancestor truncation in buildHistoryForColumn: findIndex of the next
column's parentMessageId, and `slice(0, branchIndex + 1)` when found
(JS findIndex returns -1 when absent; `List.findIdx` returns the length,
so the found-check is a comparison with the length). -/
def relevantMessages (col nextCol : Column) : List Message :=
  let branchIndex := col.messages.findIdx (fun m => decide (some m.id = nextCol.parentMessageId))
  if branchIndex < col.messages.length then col.messages.take (branchIndex + 1)
  else col.messages

/-- The synthetic branch-transition prompt of buildHistoryForColumn. -/
def branchText (snippet : String) : String :=
  "I want to branch off and discuss specifically about: \"" ++ snippet ++ "\""

def entryOfMessage (m : Message) : HistoryEntry := ⟨m.role, m.text⟩

/-- The `path.forEach` flattening of buildHistoryForColumn: every column
but the last contributes its truncated messages plus (when the next
column's contextSnippet is truthy) the synthetic user prompt; the target
contributes all its messages. -/
def flattenPath : List Column → List HistoryEntry
  | [] => []
  | [target] => target.messages.map entryOfMessage
  | col :: next :: rest =>
    (relevantMessages col next).map entryOfMessage
    ++ (if jsTruthy next.contextSnippet then
          [⟨"user", branchText (next.contextSnippet.getD "")⟩] else [])
    ++ flattenPath (next :: rest)

/-- buildHistoryForColumn from geminiService.ts. -/
def buildHistoryForColumn (targetColumnId : String) (columns : List Column) :
    List HistoryEntry :=
  flattenPath (pathToRoot columns targetColumnId)

/-- Modelled from the spec's words ("the prefix of its message list
ending at (and including) the message referenced"): the prefix of `msgs`
through the first message with id `mid`. -/
def takeThroughId (mid : String) : List Message → List Message
  | [] => []
  | m :: rest => if m.id = mid then [m] else m :: takeThroughId mid rest

/-- Modelled from the spec's words: the linearized context of a resolved
root-to-target path — each ancestor contributes the prefix of its
messages through the fork message, then the synthetic user message when
the next node's fork span is present (recorded and nonempty), and the
target contributes all its messages. -/
def specLinearize : List Column → List HistoryEntry
  | [] => []
  | [target] => target.messages.map entryOfMessage
  | col :: next :: rest =>
    (takeThroughId (next.parentMessageId.getD "") col.messages).map entryOfMessage
    ++ (if jsTruthy next.contextSnippet then
          [⟨"user", branchText (next.contextSnippet.getD "")⟩] else [])
    ++ specLinearize (next :: rest)

/-- Specification predicate on a root-to-target path: every non-root
column's `parentMessageId` is present and names a message of its
parent's list. -/
def forkLinksOk : List Column → Bool
  | [] => true
  | [_] => true
  | col :: next :: rest =>
    (match next.parentMessageId with
     | some mid => col.messages.any (fun m => decide (m.id = mid))
     | none => false)
    && forkLinksOk (next :: rest)

/- ------------------------------------------------------------------
C2 / C9: calculateLayout (App.tsx)
------------------------------------------------------------------ -/

/-- Layout constants of App.tsx, as exact rationals. -/
def NODE_WIDTH : ℚ := 450
def NODE_GAP_X : ℚ := 150
def NODE_GAP_Y : ℚ := 50
def NODE_DEFAULT_HEIGHT : ℚ := 200

/-- One value of the layout map: `{x, y, height}` with `y` the vertical
center of the node. -/
structure LayoutEntry where
  x : ℚ
  y : ℚ
  height : ℚ
deriving DecidableEq, Repr

/-- The height lookup `nodeHeights.get(nodeId) || NODE_DEFAULT_HEIGHT`
of positionNode (`||`: a missing or zero — falsy — height falls back to
the default). -/
def effHeight (heights : String → Option ℚ) (nodeId : String) : ℚ :=
  match heights nodeId with
  | none => NODE_DEFAULT_HEIGHT
  | some h => if h = 0 then NODE_DEFAULT_HEIGHT else h

/-- The `children.forEach` of positionNode (also the `roots.forEach` of
calculateLayout, which uses the same stacking rule at x = 0): each child
subtree is placed where the previous child's subtree ended plus
NODE_GAP_Y; returns the emitted layout entries and the running top
(last subtree bottom + NODE_GAP_Y). -/
def stackChildren (pn : String → ℚ → ℚ → List (String × LayoutEntry) × ℚ) (x : ℚ) :
    List Column → ℚ → List (String × LayoutEntry) × ℚ
  | [], top => ([], top)
  | child :: rest, top =>
    let r1 := pn child.id x top
    let r2 := stackChildren pn x rest (r1.2 + NODE_GAP_Y)
    (r1.1 ++ r2.1, r2.2)

/-- positionNode from calculateLayout (App.tsx): place the node with its
visual top at `startY` (the map stores the center), recurse on its
children one column to the right, and return the subtree bottom — the
node's own bottom for a leaf, otherwise the max of the node's own bottom
and the last child's subtree bottom.  The layout map built by `set` is
returned as the association list of emitted entries (each id is emitted
once on acyclic input).  Fuel replaces the source's unbounded recursion. -/
def positionNode (columns : List Column) (heights : String → Option ℚ) :
    Nat → String → ℚ → ℚ → List (String × LayoutEntry) × ℚ
  | 0 => fun _ _ _ => ([], 0)
  | fuel+1 => fun nodeId x startY =>
    let currentHeight := effHeight heights nodeId
    let entry : String × LayoutEntry := (nodeId, ⟨x, startY + currentHeight/2, currentHeight⟩)
    match getChildren columns (some nodeId) with
    | [] => ([entry], startY + currentHeight)
    | child :: rest =>
      let r := stackChildren (positionNode columns heights fuel)
        (x + NODE_WIDTH + NODE_GAP_X) (child :: rest) startY
      (entry :: r.1, max (startY + currentHeight) (r.2 - NODE_GAP_Y))

/-- calculateLayout from App.tsx: lay out every root (children of null)
at x = 0, stacked with the sibling rule. -/
def calculateLayout (columns : List Column) (heights : String → Option ℚ) :
    List (String × LayoutEntry) :=
  (stackChildren (positionNode columns heights (columns.length + 1)) 0
    (getChildren columns none) 0).1

/-- The ids carried by the layout map. -/
def layoutIds (columns : List Column) (heights : String → Option ℚ) : List String :=
  (calculateLayout columns heights).map Prod.fst

/-- One parent step of the column forest: `p` is the parentId of some
column with id `d`. -/
def ParentOf (columns : List Column) (p d : String) : Prop :=
  ∃ c ∈ columns, c.parentId = some p ∧ c.id = d

/-- Ancestor-or-self, as the reflexive-transitive closure of parent
steps. -/
def Desc (columns : List Column) : String → String → Prop :=
  Relation.ReflTransGen (ParentOf columns)

/-- The column list is a well-formed forest: every column's parent chain
resolves all the way to a root.  (This packages acyclicity together with
the existence of referenced parents and the id-uniqueness of the data
model: each column is what its own id looks up to.) -/
def Resolves (columns : List Column) : Prop :=
  ∀ c ∈ columns, ∃ q, upChainOk columns (c :: q) = true

/-- Fuel adequacy for a recursive call on column `c`: some resolved
chain of `c` is short enough that `fuel` covers the remaining depth. -/
def callOk (columns : List Column) (fuel : Nat) (c : Column) : Prop :=
  ∃ q, upChainOk columns (c :: q) = true ∧ columns.length ≤ fuel + q.length

/- ------------------------------------------------------------------
C5: handleCloseColumn (App.tsx)
------------------------------------------------------------------ -/

/-- getDescendants from handleCloseColumn (App.tsx):
`[id, ...children.flatMap(c => getDescendants(c.id))]`, with fuel for
the source's unbounded recursion.  (These are also exactly the ids
emitted by positionNode, a fact the layout theorems use.) -/
def getDescendants (columns : List Column) : Nat → String → List String
  | 0 => fun _ => []
  | fuel+1 => fun id =>
    id :: ((getChildren columns (some id)).map
      (fun c => getDescendants columns fuel c.id)).flatten

/-- The state handleCloseColumn touches. -/
structure CloseState where
  columns : List Column
  nodeHeights : String → Option ℚ
  nodeOffsets : String → Option (ℚ × ℚ)
  selectedColumnId : String

/-- handleCloseColumn from App.tsx: compute the descendant id set,
filter the column list, delete the ids from the height and offset maps,
and reassign the selection when it pointed into the deleted subtree —
to the closed column's parentId when that is truthy, otherwise to
`columns[0].id` of the pre-close list (modelled as the head; the claims
only invoke this on nonempty lists). -/
def handleCloseColumn (s : CloseState) (columnId : String) : CloseState :=
  let toDelete := getDescendants s.columns (s.columns.length + 1) columnId
  let columns' := s.columns.filter (fun c => !decide (c.id ∈ toDelete))
  let heights' := fun id => if id ∈ toDelete then none else s.nodeHeights id
  let offsets' := fun id => if id ∈ toDelete then none else s.nodeOffsets id
  let selected' :=
    if s.selectedColumnId ∈ toDelete then
      match findColumn s.columns columnId with
      | some col =>
        if jsTruthy col.parentId then col.parentId.getD ""
        else ((s.columns.head?).map Column.id).getD s.selectedColumnId
      | none => ((s.columns.head?).map Column.id).getD s.selectedColumnId
    else s.selectedColumnId
  { columns := columns', nodeHeights := heights', nodeOffsets := offsets',
    selectedColumnId := selected' }

/- ------------------------------------------------------------------
Concrete example data used by the witnesses and counterexamples
------------------------------------------------------------------ -/

/-- Root column of the linearization example: messages u1, a1, u2, a2. -/
def exRoot1 : Column :=
  { id := "r", title := "Root", parentId := none, parentMessageId := none,
    contextSnippet := none,
    messages :=
      [⟨"u1", "user", "q1", 0⟩, ⟨"a1", "model", "ans1", 1⟩,
       ⟨"u2", "user", "q2", 2⟩, ⟨"a2", "model", "ans2", 3⟩],
    inputValue := "", isThinking := false, isCollapsed := false }

/-- Branch column of the linearization example: forked at a1 with span
"X", own messages u3, a3. -/
def exBranch1 : Column :=
  { id := "b", title := "X...", parentId := some "r", parentMessageId := some "a1",
    contextSnippet := some "X",
    messages := [⟨"u3", "user", "q3", 4⟩, ⟨"a3", "model", "ans3", 5⟩],
    inputValue := "", isThinking := false, isCollapsed := false }

def exCols1 : List Column := [exRoot1, exBranch1]

/-- A plain column constructor for the layout/close examples. -/
def mkCol (id : String) (parentId : Option String) : Column :=
  { id := id, title := id, parentId := parentId, parentMessageId := none,
    contextSnippet := none, messages := [], inputValue := "",
    isThinking := false, isCollapsed := false }

/-- Layout example: one root with two leaf children sharing a column. -/
def exCols2 : List Column := [mkCol "a" none, mkCol "b" (some "a"), mkCol "c" (some "a")]

/-- Close example: root "a" with child "b", grandchild "c" and an
unrelated child "d". -/
def exCols5 : List Column :=
  [mkCol "a" none, mkCol "b" (some "a"), mkCol "c" (some "b"), mkCol "d" (some "a")]

/-- Close counterexample: a single root. -/
def exCols5cex : List Column := [mkCol "a" none]

/-- Completeness example for C9: same forest as the close example. -/
def exCols9 : List Column :=
  [mkCol "a" none, mkCol "z" (some "ghost"), mkCol "b" (some "a")]

/-- Bundle of inductive invariants of positionNode used by the
no-overlap proof: at any placement (x, y) the returned bottom clears the
node's own bottom, every emitted rectangle lies in the vertical band
[y, bottom], every emitted id is a descendant of the node, and two
emitted rectangles whose ids are not in the ancestor relation are
vertically separated. -/
def SubtreeProps (columns : List Column) (heights : String → Option ℚ)
    (pn : String → ℚ → ℚ → List (String × LayoutEntry) × ℚ) (c : Column) : Prop :=
  ∀ x y,
    y + effHeight heights c.id ≤ (pn c.id x y).2
    ∧ (∀ p ∈ (pn c.id x y).1,
        y ≤ p.2.y - p.2.height/2 ∧ p.2.y + p.2.height/2 ≤ (pn c.id x y).2)
    ∧ (∀ p ∈ (pn c.id x y).1, Desc columns c.id p.1)
    ∧ (∀ p ∈ (pn c.id x y).1, ∀ r ∈ (pn c.id x y).1,
        p.1 ≠ r.1 → ¬Desc columns p.1 r.1 → ¬Desc columns r.1 p.1 →
        p.2.y + p.2.height/2 ≤ r.2.y - r.2.height/2
          ∨ r.2.y + r.2.height/2 ≤ p.2.y - p.2.height/2)

/- ==================================================================
Theorems
================================================================== -/

/-- C3: for every pan, every scale in [0.1, 3], every pointer position
and wheel delta, handleWheel sets newScale = clamp(scale - deltaY*0.001,
0.1, 3) and recomputes pan as pointer - worldPos * newScale with
worldPos = (pointer - pan)/scale, so that (in exact arithmetic) the
world point under the pointer maps back to the pointer:
worldPos * newScale + newPan = pointer, in both coordinates. -/
theorem handleWheel_zoom_anchors_pointer (s : WheelState) (clientX clientY deltaY : ℚ)
    (h1 : 1/10 ≤ s.scale) (h2 : s.scale ≤ 3) :
    (handleWheel true s clientX clientY deltaY).scale
        = min (max (1/10) (s.scale - deltaY * (1/1000))) 3
    ∧ ((clientX - s.panX) / s.scale) * (handleWheel true s clientX clientY deltaY).scale
        + (handleWheel true s clientX clientY deltaY).panX = clientX
    ∧ ((clientY - s.panY) / s.scale) * (handleWheel true s clientX clientY deltaY).scale
        + (handleWheel true s clientX clientY deltaY).panY = clientY := by
  refine ⟨?_, ?_, ?_⟩
  · simp [handleWheel]
  · simp only [handleWheel, Bool.true_eq_false, if_false]
    ring
  · simp only [handleWheel, Bool.true_eq_false, if_false]
    ring

/-- Witness for C3 at pan (0,0), scale 1, pointer (10,5), delta 100. -/
theorem handleWheel_zoom_anchors_pointer_witness :
    ((1:ℚ)/10 ≤ 1 ∧ (1:ℚ) ≤ 3)
    ∧ ((handleWheel true ⟨0, 0, 1⟩ 10 5 100).scale
        = min (max (1/10) (1 - 100 * (1/1000))) 3
    ∧ ((10 - 0) / 1) * (handleWheel true ⟨0, 0, 1⟩ 10 5 100).scale
        + (handleWheel true ⟨0, 0, 1⟩ 10 5 100).panX = 10
    ∧ ((5 - 0) / 1) * (handleWheel true ⟨0, 0, 1⟩ 10 5 100).scale
        + (handleWheel true ⟨0, 0, 1⟩ 10 5 100).panY = 5) :=
  ⟨⟨by norm_num, by norm_num⟩,
   handleWheel_zoom_anchors_pointer ⟨0, 0, 1⟩ 10 5 100 (by norm_num) (by norm_num)⟩

/-- C4: a node-drag gesture at scale s records the offset and pointer
position at drag start; after any nonempty sequence of move events the
node's manual offset is the recorded offset plus (total screen delta)/s,
determined by the last pointer position alone (not accumulated across
intermediate moves) and independent of the pan, which the computation
never reads. -/
theorem nodeDrag_offset_roundtrip (offsets0 : String → Option (ℚ × ℚ)) (cid : String)
    (startX startY : ℚ) (scale : ℚ) (hs : 0 < scale)
    (moves : List (ℚ × ℚ)) (lastMove : ℚ × ℚ) (hlast : moves.getLast? = some lastMove) :
    (moves.foldl
        (fun m p =>
          handleMouseMoveNode scale (handleNodeDragStart offsets0 cid startX startY) m p.1 p.2)
        offsets0) cid
      = some (((offsets0 cid).getD (0, 0)).1 + (lastMove.1 - startX) / scale,
              ((offsets0 cid).getD (0, 0)).2 + (lastMove.2 - startY) / scale) := by
  induction moves using List.reverseRecOn with
  | nil => simp at hlast
  | append_singleton ms a _ =>
    rw [List.getLast?_concat] at hlast
    obtain rfl : a = lastMove := by
      simpa using hlast
    simp [List.foldl_append, handleMouseMoveNode, handleNodeDragStart]

/-- Witness for C4: two moves at scale 2 from pointer start (0,0) with
no pre-drag offset; the final offset is the last delta divided by 2. -/
theorem nodeDrag_offset_roundtrip_witness :
    ((0:ℚ) < 2 ∧ ([((4:ℚ), (6:ℚ)), (10, 20)]).getLast? = some (10, 20))
    ∧ (([((4:ℚ), (6:ℚ)), (10, 20)]).foldl
        (fun m p =>
          handleMouseMoveNode 2 (handleNodeDragStart (fun _ => none) "n" 0 0) m p.1 p.2)
        (fun _ => none)) "n"
      = some ((((fun _ => (none : Option (ℚ × ℚ))) "n").getD (0, 0)).1 + (10 - 0) / 2,
              (((fun _ => (none : Option (ℚ × ℚ))) "n").getD (0, 0)).2 + (20 - 0) / 2) :=
  ⟨⟨by norm_num, rfl⟩,
   nodeDrag_offset_roundtrip (fun _ => none) "n" 0 0 2 (by norm_num)
     [(4, 6), (10, 20)] (10, 20) rfl⟩

/-- C6: submitting while the selected column's isThinking flag is set is
a no-op on the conversation state — no user message is appended, no model
placeholder is created, and the column list (indeed the whole submit
state) is unchanged. -/
theorem handleGlobalSubmit_thinking_noop (s : SubmitState) (userMsgId modelMsgId : String)
    (now : Nat) (col : Column)
    (hfind : findColumn s.columns s.selectedColumnId = some col)
    (hth : col.isThinking = true) :
    handleGlobalSubmit s userMsgId modelMsgId now = s := by
  unfold handleGlobalSubmit
  rw [hfind]
  simp [hth]

/-- Witness for C6: a thinking selected column absorbs the submit with
no state change. -/
theorem handleGlobalSubmit_thinking_noop_witness :
    (findColumn [⟨"t", "t", none, none, none, [], "", true, false⟩] "t"
        = some ⟨"t", "t", none, none, none, [], "", true, false⟩
      ∧ (⟨"t", "t", none, none, none, [], "", true, false⟩ : Column).isThinking = true)
    ∧ handleGlobalSubmit ⟨[⟨"t", "t", none, none, none, [], "", true, false⟩], "hello", "t"⟩
        "u" "m" 0
      = ⟨[⟨"t", "t", none, none, none, [], "", true, false⟩], "hello", "t"⟩ :=
  ⟨⟨by decide, rfl⟩,
   handleGlobalSubmit_thinking_noop
     ⟨[⟨"t", "t", none, none, none, [], "", true, false⟩], "hello", "t"⟩ "u" "m" 0
     ⟨"t", "t", none, none, none, [], "", true, false⟩ (by decide) rfl⟩

/-- C7 (amended): a branch request whose selected span is empty after
trimming is rejected by the selection guard of MessageBubble.tsx before
any request is issued, so the column list is unchanged; requests with a
stale source message id are not validated anywhere — handleBranch
unconditionally appends exactly one new column. -/
theorem emptySpan_branch_rejected (columns : List Column)
    (newColId sourceColumnId messageId rawSelection : String) (anchorInBubble : Bool)
    (hempty : strTrim rawSelection = "") :
    deepDiveBranch columns newColId sourceColumnId messageId rawSelection anchorInBubble
        = columns
    ∧ ∀ (nid sc mid txt : String) (cp : Option String),
        (handleBranch columns nid sc mid txt cp).length = columns.length + 1 := by
  constructor
  · unfold deepDiveBranch handleMouseUpSelection
    rw [hempty]
    simp
  · intro nid sc mid txt cp
    simp [handleBranch]

/-- Witness for C7's amended claim: a whitespace-only selection on the
example root creates nothing. -/
theorem emptySpan_branch_rejected_witness :
    (strTrim "  " = ""
    ∧ deepDiveBranch [exRoot1] "n" "r" "a1" "  " true = [exRoot1])
    ∧ ∀ (nid sc mid txt : String) (cp : Option String),
        (handleBranch [exRoot1] nid sc mid txt cp).length = [exRoot1].length + 1 := by
  have h := emptySpan_branch_rejected [exRoot1] "n" "r" "a1" "  " true (by decide)
  exact ⟨⟨by decide, h.1⟩, h.2⟩

/-- C7 counterexample: the claim as stated fails — a branch request
whose source message id ("ghost") does not exist in the source column's
message list is not rejected: handleBranch changes the column list. -/
theorem handleBranch_stale_message_cex :
    exRoot1.messages.any (fun m => decide (m.id = "ghost")) = false
    ∧ handleBranch [exRoot1] "n" "r" "ghost" "text" none ≠ [exRoot1] := by
  constructor
  · decide
  · decide

/-- C8: a streamed chunk addressed to a column id that no longer occurs
in the list leaves the entire column list unchanged — the chunk is
dropped and never lands on another column's messages. -/
theorem updateLastMessage_missing_column_noop (columns : List Column) (columnId : String)
    (textChunk : String) (habs : ∀ c ∈ columns, c.id ≠ columnId) :
    updateLastMessage columns columnId textChunk = columns := by
  induction columns with
  | nil => rfl
  | cons c rest ih =>
    have h1 : ¬(c.id = columnId) := habs c (by simp)
    have h2 := ih (fun x hx => habs x (by simp [hx]))
    simp only [updateLastMessage, List.map_cons] at h2 ⊢
    rw [if_neg h1, h2]

/-- Witness for C8: a chunk addressed to a deleted id "zz" leaves the
one-column list untouched. -/
theorem updateLastMessage_missing_column_noop_witness :
    (∀ c ∈ [exRoot1], c.id ≠ "zz")
    ∧ updateLastMessage [exRoot1] "zz" "chunk" = [exRoot1] :=
  ⟨by decide, updateLastMessage_missing_column_noop [exRoot1] "zz" "chunk" (by decide)⟩

/-- Helper: the screen position of world point w is preserved by a
scale change with fixed pan exactly when w is the world origin or the
scale did not change. -/
theorem screenFixed_iff (a b p w : ℚ) :
    w * a + p = w * b + p ↔ (w = 0 ∨ a = b) := by
  constructor
  · intro h
    rcases mul_eq_zero.mp (by linear_combination h : w * (a - b) = 0) with h0 | hd
    · exact Or.inl h0
    · exact Or.inr (sub_eq_zero.mp hd)
  · rintro (rfl | rfl)
    · ring_nf
    · rfl

/-- C10 (amended): each header zoom button changes the scale by exactly
∓0.1 clamped to [0.1, 3] and leaves the pan and every manual node offset
unchanged — no pointer-anchoring pan compensation happens; consequently
the fixed point of a button zoom (the world point whose screen position
is preserved) is the world origin, the point currently at screen
position pan — not the world point at the screen origin. -/
theorem buttonZoom_scale_step (v : CanvasView) (h1 : 1/10 ≤ v.scale) (h2 : v.scale ≤ 3) :
    (zoomOutClick v).scale = min 3 (max (1/10) (v.scale - 1/10))
    ∧ (zoomInClick v).scale = min 3 (max (1/10) (v.scale + 1/10))
    ∧ (zoomOutClick v).panX = v.panX ∧ (zoomOutClick v).panY = v.panY
    ∧ (zoomOutClick v).nodeOffsets = v.nodeOffsets
    ∧ (zoomInClick v).panX = v.panX ∧ (zoomInClick v).panY = v.panY
    ∧ (zoomInClick v).nodeOffsets = v.nodeOffsets
    ∧ (∀ w : ℚ, w * (zoomOutClick v).scale + (zoomOutClick v).panX = w * v.scale + v.panX
        ↔ (w = 0 ∨ (zoomOutClick v).scale = v.scale))
    ∧ (∀ w : ℚ, w * (zoomInClick v).scale + (zoomInClick v).panX = w * v.scale + v.panX
        ↔ (w = 0 ∨ (zoomInClick v).scale = v.scale)) := by
  have hb1 : max (1/10) (v.scale - 1/10) ≤ 3 := by
    apply max_le <;> linarith
  have hb2 : (1:ℚ)/10 ≤ v.scale + 1/10 := by linarith
  exact ⟨(min_eq_right hb1).symm, by rw [max_eq_right hb2]; rfl, rfl, rfl, rfl, rfl, rfl, rfl,
    fun w => screenFixed_iff _ _ _ w, fun w => screenFixed_iff _ _ _ w⟩

/-- Witness for C10's amended claim at pan (100,0), scale 1. -/
theorem buttonZoom_scale_step_witness :
    ((1:ℚ)/10 ≤ 1 ∧ (1:ℚ) ≤ 3)
    ∧ ((zoomOutClick ⟨100, 0, 1, fun _ => none⟩).scale = min 3 (max (1/10) (1 - 1/10))
    ∧ (zoomInClick ⟨100, 0, 1, fun _ => none⟩).scale = min 3 (max (1/10) (1 + 1/10))
    ∧ (zoomOutClick ⟨100, 0, 1, fun _ => none⟩).panX = 100
    ∧ (zoomOutClick ⟨100, 0, 1, fun _ => none⟩).panY = 0
    ∧ (zoomOutClick ⟨100, 0, 1, fun _ => none⟩).nodeOffsets = (fun _ => none)
    ∧ (zoomInClick ⟨100, 0, 1, fun _ => none⟩).panX = 100
    ∧ (zoomInClick ⟨100, 0, 1, fun _ => none⟩).panY = 0
    ∧ (zoomInClick ⟨100, 0, 1, fun _ => none⟩).nodeOffsets = (fun _ => none)
    ∧ (∀ w : ℚ, w * (zoomOutClick ⟨100, 0, 1, fun _ => none⟩).scale
          + (zoomOutClick ⟨100, 0, 1, fun _ => none⟩).panX = w * 1 + 100
        ↔ (w = 0 ∨ (zoomOutClick ⟨100, 0, 1, fun _ => none⟩).scale = 1))
    ∧ (∀ w : ℚ, w * (zoomInClick ⟨100, 0, 1, fun _ => none⟩).scale
          + (zoomInClick ⟨100, 0, 1, fun _ => none⟩).panX = w * 1 + 100
        ↔ (w = 0 ∨ (zoomInClick ⟨100, 0, 1, fun _ => none⟩).scale = 1))) :=
  ⟨⟨by norm_num, by norm_num⟩,
   buttonZoom_scale_step ⟨100, 0, 1, fun _ => none⟩ (by norm_num) (by norm_num)⟩

/-- C10 counterexample: the claim's parenthetical is wrong — after a
button zoom-out at pan (100,0), scale 1, the world point that was at the
screen origin ((0 - 100)/1 = -100) does not map back to the screen
origin (it lands at screen x = 10). -/
theorem buttonZoom_screen_origin_not_fixed_cex :
    ((0 - (100:ℚ)) / 1) * (zoomOutClick ⟨100, 0, 1, fun _ => none⟩).scale
      + (zoomOutClick ⟨100, 0, 1, fun _ => none⟩).panX ≠ 0 := by
  show ((0 - (100:ℚ)) / 1) * max (1/10) (1 - 1/10) + 100 ≠ 0
  rw [max_eq_right (by norm_num : (1:ℚ)/10 ≤ 1 - 1/10)]
  norm_num

/- ------------------------------------------------------------------
Lemmas about resolved parent chains (shared by C1, C2, C5, C9)
------------------------------------------------------------------ -/

/-- A resolved chain restricted to its tail is still resolved. -/
theorem upChainOk_inner (columns : List Column) (c p : Column) (rest : List Column)
    (h : upChainOk columns (c :: p :: rest) = true) :
    upChainOk columns (p :: rest) = true := by
  simp only [upChainOk, Bool.and_eq_true] at h
  exact h.2

/-- The head of a resolved chain is what its id looks up to. -/
theorem upChainOk_head_find (columns : List Column) (c : Column) (t : List Column)
    (h : upChainOk columns (c :: t) = true) : findColumn columns c.id = some c := by
  cases t with
  | nil => simp only [upChainOk, Bool.and_eq_true, decide_eq_true_eq] at h; exact h.1
  | cons p rest => simp only [upChainOk, Bool.and_eq_true, decide_eq_true_eq] at h; exact h.1.1

/-- Adjacent chain elements are linked by parentId. -/
theorem upChainOk_link (columns : List Column) (c p : Column) (rest : List Column)
    (h : upChainOk columns (c :: p :: rest) = true) : c.parentId = some p.id := by
  simp only [upChainOk, Bool.and_eq_true, decide_eq_true_eq] at h
  exact h.1.2

/-- A singleton resolved chain is a root. -/
theorem upChainOk_last_none (columns : List Column) (c : Column)
    (h : upChainOk columns [c] = true) : c.parentId = none := by
  simp only [upChainOk, Bool.and_eq_true, decide_eq_true_eq] at h
  exact h.2

/-- Every column of a resolved chain belongs to the column list. -/
theorem upChainOk_mem (columns : List Column) :
    ∀ q, upChainOk columns q = true → ∀ c ∈ q, c ∈ columns := by
  intro q
  induction q with
  | nil => intro _ c hc; simp at hc
  | cons a t ih =>
    intro h c hc
    rcases List.mem_cons.mp hc with rfl | hct
    · exact List.mem_of_find?_eq_some (upChainOk_head_find columns c t h)
    · cases t with
      | nil => simp at hct
      | cons p rest => exact ih (upChainOk_inner columns a p rest h) c hct

/-- A column determines its resolved chain: two resolved chains with the
same head are equal. -/
theorem upChainOk_det (columns : List Column) :
    ∀ t t' (c : Column), upChainOk columns (c :: t) = true →
      upChainOk columns (c :: t') = true → t = t' := by
  intro t
  induction t with
  | nil =>
    intro t' c h h'
    cases t' with
    | nil => rfl
    | cons p' r' =>
      have h1 := upChainOk_last_none columns c h
      have h2 := upChainOk_link columns c p' r' h'
      rw [h1] at h2
      exact absurd h2 (by simp)
  | cons p r ih =>
    intro t' c h h'
    cases t' with
    | nil =>
      have h1 := upChainOk_last_none columns c h'
      have h2 := upChainOk_link columns c p r h
      rw [h1] at h2
      exact absurd h2 (by simp)
    | cons p' r' =>
      have e1 := upChainOk_link columns c p r h
      have e2 := upChainOk_link columns c p' r' h'
      have hpid : p.id = p'.id := by rw [e1] at e2; injection e2
      have f1 := upChainOk_head_find columns p r (upChainOk_inner columns c p r h)
      have f2 := upChainOk_head_find columns p' r' (upChainOk_inner columns c p' r' h')
      rw [hpid] at f1
      obtain rfl : p = p' := by rw [f1] at f2; exact Option.some.inj f2
      rw [ih r' p (upChainOk_inner columns c p r h) (upChainOk_inner columns c p r' h')]

/-- A nonempty suffix of a resolved chain is resolved. -/
theorem upChainOk_suffix (columns : List Column) :
    ∀ w l, upChainOk columns (w ++ l) = true → l ≠ [] → upChainOk columns l = true := by
  intro w
  induction w with
  | nil => intro l h _; simpa using h
  | cons a w' ih =>
    intro l h hne
    cases hwl : w' ++ l with
    | nil => exact absurd (List.append_eq_nil.mp hwl).2 hne
    | cons b t =>
      have h2 : upChainOk columns (a :: b :: t) = true := by
        rw [← hwl]; simpa using h
      exact ih l (by rw [hwl]; exact upChainOk_inner columns a b t h2) hne

/-- A resolved chain never repeats a column. -/
theorem upChainOk_nodup (columns : List Column) :
    ∀ q, upChainOk columns q = true → q.Nodup := by
  intro q
  induction q with
  | nil => intro _; exact List.nodup_nil
  | cons c t ih =>
    intro h
    cases t with
    | nil => simp
    | cons p rest =>
      have ht : upChainOk columns (p :: rest) = true := upChainOk_inner columns c p rest h
      refine List.nodup_cons.mpr ⟨?_, ih ht⟩
      intro hmem
      obtain ⟨s, u, hsu⟩ := List.append_of_mem hmem
      have hcu : upChainOk columns (c :: u) = true := by
        refine upChainOk_suffix columns s (c :: u) ?_ (by simp)
        rw [← hsu]; exact ht
      have hdet := upChainOk_det columns (p :: rest) u c h hcu
      have hlen : (p :: rest).length = s.length + 1 + u.length := by
        rw [hsu]
        simp [List.length_append]
        omega
      have hu : u.length = (p :: rest).length := by rw [hdet]
      omega

/-- A resolved chain is no longer than the column list. -/
theorem upChainOk_length_le (columns : List Column) (q : List Column)
    (h : upChainOk columns q = true) : q.length ≤ columns.length :=
  ((upChainOk_nodup columns q h).subperm
    (fun _ hc => upChainOk_mem columns q h _ hc)).length_le

/-- The chain walk on a missing id stops immediately. -/
theorem upChainOf_none (columns : List Column) : ∀ f, upChainOf columns f none = [] := by
  intro f; cases f <;> rfl

/-- With enough fuel, the chain walk reproduces the resolved chain. -/
theorem upChainOf_eq (columns : List Column) :
    ∀ t (c : Column) f, upChainOk columns (c :: t) = true → (c :: t).length ≤ f →
      upChainOf columns f (some c.id) = c :: t := by
  intro t
  induction t with
  | nil =>
    intro c f h hf
    cases f with
    | zero => simp at hf
    | succ f' =>
      have hfind := upChainOk_head_find columns c [] h
      have hnone := upChainOk_last_none columns c h
      simp only [upChainOf, hfind, hnone, upChainOf_none]
  | cons p rest ih =>
    intro c f h hf
    cases f with
    | zero => simp at hf
    | succ f' =>
      have hfind := upChainOk_head_find columns c (p :: rest) h
      have hlink := upChainOk_link columns c p rest h
      have hlen : (p :: rest).length ≤ f' := by simp at hf ⊢; omega
      have hrec := ih p f' (upChainOk_inner columns c p rest h) hlen
      simp only [upChainOf, hfind, hlink, hrec]

/-- The root-to-target path built by buildHistoryForColumn is the
reversed resolved chain. -/
theorem pathToRoot_eq (columns : List Column) (c : Column) (t : List Column)
    (h : upChainOk columns (c :: t) = true) :
    pathToRoot columns c.id = (c :: t).reverse := by
  unfold pathToRoot
  rw [upChainOf_eq columns t c (columns.length + 1) h
    (le_trans (upChainOk_length_le columns (c :: t) h) (Nat.le_succ _))]

/- ------------------------------------------------------------------
C1: the findIndex/slice truncation refines the spec's prefix
------------------------------------------------------------------ -/

/-- JS findIndex returns a hit (index below the length) when some
element satisfies the predicate. -/
theorem findIdx_lt_of_any (p : Message → Bool) :
    ∀ msgs : List Message, msgs.any p = true → msgs.findIdx p < msgs.length := by
  intro msgs
  induction msgs with
  | nil => intro h; simp at h
  | cons m rest ih =>
    intro h
    by_cases hm : p m
    · simp [List.findIdx_cons, hm]
    · simp only [List.any_cons, hm, Bool.false_or] at h
      simp [List.findIdx_cons, hm, Nat.succ_lt_succ (ih h)]

/-- slice(0, findIndex + 1) equals the prefix through the first message
with the referenced id, whenever that id occurs. -/
theorem sliceEq (mid : String) :
    ∀ msgs : List Message, msgs.any (fun m => decide (m.id = mid)) = true →
      (if msgs.findIdx (fun m => decide (some m.id = some mid)) < msgs.length
       then msgs.take (msgs.findIdx (fun m => decide (some m.id = some mid)) + 1)
       else msgs)
      = takeThroughId mid msgs := by
  intro msgs
  induction msgs with
  | nil => intro h; simp at h
  | cons m rest ih =>
    intro h
    by_cases hm : m.id = mid
    · simp [List.findIdx_cons, hm, takeThroughId]
    · have hrest : rest.any (fun m => decide (m.id = mid)) = true := by
        simpa [hm] using h
      have hlt : rest.findIdx (fun m => decide (some m.id = some mid)) < rest.length := by
        apply findIdx_lt_of_any
        simpa using hrest
      have ihr := ih hrest
      rw [if_pos hlt] at ihr
      have hpm : (fun m => decide (some m.id = some mid)) m = false := by simp [hm]
      simp only [List.findIdx_cons, hpm, cond_false, takeThroughId, if_neg hm,
        List.length_cons]
      rw [if_pos (Nat.succ_lt_succ hlt)]
      simp only [List.take_succ_cons]
      rw [ihr]

/-- The truncation performed on an ancestor equals the spec's prefix
through the fork message, whenever the fork message exists. -/
theorem relevantMessages_eq (col nextCol : Column) (mid : String)
    (hpm : nextCol.parentMessageId = some mid)
    (hany : col.messages.any (fun m => decide (m.id = mid)) = true) :
    relevantMessages col nextCol = takeThroughId mid col.messages := by
  simp only [relevantMessages, hpm]
  exact sliceEq mid col.messages hany

/-- On a path whose fork links all resolve, the source's flattening
agrees with the spec's linearization. -/
theorem flattenPath_eq_spec :
    ∀ p : List Column, forkLinksOk p = true → flattenPath p = specLinearize p := by
  intro p
  induction p with
  | nil => intro _; rfl
  | cons col rest ih =>
    intro h
    cases rest with
    | nil => rfl
    | cons next rest' =>
      have hsplit : (match next.parentMessageId with
          | some mid => col.messages.any (fun m => decide (m.id = mid))
          | none => false) = true ∧ forkLinksOk (next :: rest') = true := by
        simpa only [forkLinksOk, Bool.and_eq_true] using h
      obtain ⟨hmid, hrest⟩ := hsplit
      cases hpm : next.parentMessageId with
      | none => rw [hpm] at hmid; simp at hmid
      | some mid =>
        rw [hpm] at hmid
        simp only [flattenPath, specLinearize]
        rw [relevantMessages_eq col next mid hpm hmid, ih hrest, hpm]
        simp

/-- C1: for every target column whose root-to-target path fully
resolves (every parentId on the chain names an existing column, the
chain ends in a root, and every parentMessageId names a message of its
parent's list), buildHistoryForColumn returns exactly the spec's
linearization: for each ancestor the prefix of its messages through the
fork message, then the synthetic user message referencing the next
node's fork span when that span is present, and finally all of the
target's own messages. -/
theorem buildHistory_linearizes_path (columns : List Column) (target : Column)
    (q : List Column) (hchain : upChainOk columns (target :: q) = true)
    (hfork : forkLinksOk ((target :: q).reverse) = true) :
    buildHistoryForColumn target.id columns = specLinearize ((target :: q).reverse) := by
  unfold buildHistoryForColumn
  rw [pathToRoot_eq columns target q hchain]
  exact flattenPath_eq_spec ((target :: q).reverse) hfork

/-- Witness for C1, on the spec's own example: root messages u1 a1 u2
a2, branch at a1 with span "X" and messages u3 a3; the linearized
context is u1, a1, synthetic("X"), u3, a3 — u2 and a2 are absent. -/
theorem buildHistory_linearizes_path_witness :
    (upChainOk exCols1 [exBranch1, exRoot1] = true
      ∧ forkLinksOk ([exBranch1, exRoot1].reverse) = true)
    ∧ buildHistoryForColumn "b" exCols1
        = [⟨"user", "q1"⟩, ⟨"model", "ans1"⟩,
           ⟨"user", branchText "X"⟩, ⟨"user", "q3"⟩, ⟨"model", "ans3"⟩] := by
  have h := buildHistory_linearizes_path exCols1 exBranch1 [exRoot1] (by decide) (by decide)
  refine ⟨⟨by decide, by decide⟩, ?_⟩
  have hb : ("b" : String) = exBranch1.id := rfl
  rw [hb, h]
  decide

/- ------------------------------------------------------------------
Fuel bookkeeping for the child recursions (C2, C5, C9)
------------------------------------------------------------------ -/

/-- A node with a fuel budget has positive fuel. -/
theorem callOk_pos (columns : List Column) (f : Nat) (c : Column) (h : callOk columns f c) :
    1 ≤ f := by
  obtain ⟨q, hq, hle⟩ := h
  have hb := upChainOk_length_le columns (c :: q) hq
  simp at hb
  omega

/-- A child of a budgeted node is budgeted with one unit less fuel. -/
theorem callOk_child (columns : List Column) (hres : Resolves columns) (f : Nat) (c ch : Column)
    (hc : callOk columns (f + 1) c) (hch : ch ∈ getChildren columns (some c.id)) :
    callOk columns f ch := by
  obtain ⟨q, hq, hle⟩ := hc
  have hmem : ch ∈ columns ∧ ch.parentId = some c.id := by
    simpa [getChildren, List.mem_filter] using hch
  obtain ⟨q', hq'⟩ := hres ch hmem.1
  have hfind : findColumn columns ch.id = some ch := upChainOk_head_find columns ch q' hq'
  refine ⟨c :: q, ?_, by simp; omega⟩
  show upChainOk columns (ch :: c :: q) = true
  simp only [upChainOk, Bool.and_eq_true, decide_eq_true_eq]
  exact ⟨⟨hfind, hmem.2⟩, hq⟩

/-- In a resolved forest the top-level fuel budget covers every column. -/
theorem callOk_of_resolves (columns : List Column) (hres : Resolves columns) (c : Column)
    (hc : c ∈ columns) : callOk columns (columns.length + 1) c := by
  obtain ⟨q, hq⟩ := hres c hc
  exact ⟨q, hq, by omega⟩

/-- The effective height is positive when measured heights are
nonnegative (zero falls back to the positive default). -/
theorem effHeight_pos (heights : String → Option ℚ)
    (hh : ∀ id h, heights id = some h → 0 ≤ h) (nodeId : String) :
    0 < effHeight heights nodeId := by
  unfold effHeight
  cases hid : heights nodeId with
  | none => norm_num [NODE_DEFAULT_HEIGHT]
  | some h =>
    show 0 < if h = 0 then NODE_DEFAULT_HEIGHT else h
    by_cases h0 : h = 0
    · rw [if_pos h0]
      norm_num [NODE_DEFAULT_HEIGHT]
    · rw [if_neg h0]
      exact lt_of_le_of_ne (hh nodeId h hid) (Ne.symm h0)

/-- Membership in getChildren gives a ParentOf step. -/
theorem parentOf_of_child (columns : List Column) (c ch : Column)
    (hch : ch ∈ getChildren columns (some c.id)) : ParentOf columns c.id ch.id := by
  have hmem : ch ∈ columns ∧ ch.parentId = some c.id := by
    simpa [getChildren, List.mem_filter] using hch
  exact ⟨ch, hmem.1, hmem.2, rfl⟩

/- ------------------------------------------------------------------
getDescendants versus the ancestor relation (C5, C9)
------------------------------------------------------------------ -/

/-- Soundness: every id listed by getDescendants is a descendant. -/
theorem getDescendants_desc (columns : List Column) :
    ∀ f cid d, d ∈ getDescendants columns f cid → Desc columns cid d := by
  intro f
  induction f with
  | zero => intro cid d hd; simp [getDescendants] at hd
  | succ f ih =>
    intro cid d hd
    simp only [getDescendants, List.mem_cons, List.mem_flatten] at hd
    rcases hd with rfl | ⟨l, hl, hdl⟩
    · exact Relation.ReflTransGen.refl
    · obtain ⟨ch, hch, rfl⟩ := List.mem_map.mp hl
      refine Relation.ReflTransGen.head ?_ (ih ch.id d hdl)
      have hmem : ch ∈ columns ∧ ch.parentId = some cid := by
        simpa [getChildren, List.mem_filter] using hch
      exact ⟨ch, hmem.1, hmem.2, rfl⟩

/-- The head of a resolved chain passing through `c` is listed by
getDescendants of `c` (with an adequate fuel budget). -/
theorem chain_head_mem_getDescendants (columns : List Column) (hres : Resolves columns) :
    ∀ (w : List Column) (c : Column) (q : List Column) (f : Nat) (hd : Column),
      upChainOk columns (w ++ c :: q) = true →
      callOk columns f c →
      (w ++ c :: q).head? = some hd →
      hd.id ∈ getDescendants columns f c.id := by
  intro w
  induction w using List.reverseRecOn with
  | nil =>
    intro c q f hd hchain hok hhd
    obtain rfl : c = hd := by simpa using hhd
    obtain ⟨f', rfl⟩ : ∃ f'', f = f'' + 1 :=
      ⟨f - 1, by have := callOk_pos columns f c hok; omega⟩
    simp [getDescendants]
  | append_singleton w' ch ihw =>
    intro c q f hd hchain hok hhd
    rw [List.append_assoc] at hchain hhd
    obtain ⟨f', rfl⟩ : ∃ f'', f = f'' + 1 :=
      ⟨f - 1, by have := callOk_pos columns f c hok; omega⟩
    have hsub : upChainOk columns (ch :: c :: q) = true :=
      upChainOk_suffix columns w' ([ch] ++ c :: q) hchain (by simp)
    have hlink : ch.parentId = some c.id := upChainOk_link columns ch c q hsub
    have hchmem : ch ∈ columns := upChainOk_mem columns _ hsub ch (by simp)
    have hchild : ch ∈ getChildren columns (some c.id) := by
      simp [getChildren, List.mem_filter, hchmem, hlink]
    have hokch : callOk columns f' ch := callOk_child columns hres f' c ch hok hchild
    have hih := ihw ch (c :: q) f' hd hchain hokch hhd
    simp only [getDescendants, List.mem_cons, List.mem_flatten]
    exact Or.inr ⟨getDescendants columns f' ch.id, List.mem_map_of_mem _ hchild, hih⟩

/-- Every descendant of a resolved column extends that column's chain. -/
theorem desc_chain (columns : List Column) (hres : Resolves columns)
    (c : Column) (q : List Column) (hq : upChainOk columns (c :: q) = true)
    (d : String) (hdesc : Desc columns c.id d) :
    ∃ (w : List Column) (hd : Column),
      upChainOk columns (w ++ c :: q) = true ∧
      (w ++ c :: q).head? = some hd ∧ hd.id = d := by
  induction hdesc with
  | refl => exact ⟨[], c, by simpa using hq, by simp, rfl⟩
  | tail hab hbc ih =>
    obtain ⟨w, hd, hchain, hhd, hid⟩ := ih
    obtain ⟨cd, hcdmem, hcdpar, hcdid⟩ := hbc
    obtain ⟨q'', hq''⟩ := hres cd hcdmem
    have hfind : findColumn columns cd.id = some cd := upChainOk_head_find columns cd q'' hq''
    refine ⟨cd :: w, cd, ?_, by simp, hcdid⟩
    cases hwq : w ++ c :: q with
    | nil => simp at hwq
    | cons hd2 t =>
      obtain rfl : hd2 = hd := by rw [hwq] at hhd; simpa using hhd
      rw [List.cons_append, hwq]
      show upChainOk columns (cd :: hd2 :: t) = true
      simp only [upChainOk, Bool.and_eq_true, decide_eq_true_eq]
      refine ⟨⟨hfind, ?_⟩, by rw [← hwq]; exact hchain⟩
      rw [hcdpar, hid]

/-- Completeness: with adequate fuel, getDescendants lists every
descendant of a resolved column. -/
theorem desc_mem_getDescendants (columns : List Column) (hres : Resolves columns)
    (c : Column) (f : Nat) (hok : callOk columns f c) (d : String)
    (hdesc : Desc columns c.id d) : d ∈ getDescendants columns f c.id := by
  obtain ⟨q, hq, hlen⟩ := hok
  obtain ⟨w, hd, hchain, hhd, hid⟩ := desc_chain columns hres c q hq d hdesc
  rw [← hid]
  exact chain_head_mem_getDescendants columns hres w c q f hd hchain ⟨q, hq, hlen⟩ hhd

/- ------------------------------------------------------------------
C2: vertical no-overlap of the layout
------------------------------------------------------------------ -/

/-- The sibling-stacking fold preserves the subtree invariants: the
running top never decreases, every emitted rectangle lies (with one gap
of clearance below) in the band [top, result top], every emitted id
descends from one of the stacked children, and rectangles of unrelated
ids are vertically separated — across two different children because
their bands are disjoint, inside one child by that child's invariant. -/
theorem stackChildren_props (columns : List Column) (heights : String → Option ℚ)
    (pn : String → ℚ → ℚ → List (String × LayoutEntry) × ℚ)
    (hh : ∀ id h, heights id = some h → 0 ≤ h) :
    ∀ (chs : List Column),
      (∀ ch ∈ chs, SubtreeProps columns heights pn ch) →
      ∀ x top,
        top ≤ (stackChildren pn x chs top).2
        ∧ (∀ p ∈ (stackChildren pn x chs top).1,
            top ≤ p.2.y - p.2.height/2
              ∧ p.2.y + p.2.height/2 + NODE_GAP_Y ≤ (stackChildren pn x chs top).2)
        ∧ (∀ p ∈ (stackChildren pn x chs top).1, ∃ ch ∈ chs, Desc columns ch.id p.1)
        ∧ (∀ p ∈ (stackChildren pn x chs top).1, ∀ r ∈ (stackChildren pn x chs top).1,
            p.1 ≠ r.1 → ¬Desc columns p.1 r.1 → ¬Desc columns r.1 p.1 →
            p.2.y + p.2.height/2 ≤ r.2.y - r.2.height/2
              ∨ r.2.y + r.2.height/2 ≤ p.2.y - p.2.height/2) := by
  intro chs
  induction chs with
  | nil =>
    intro _ x top
    refine ⟨le_refl top, ?_, ?_, ?_⟩ <;> intro p hp <;> simp [stackChildren] at hp
  | cons ch rest ih =>
    intro hsub x top
    obtain ⟨ha1, ha2, ha3, ha4⟩ := hsub ch (by simp) x top
    have heff := effHeight_pos heights hh ch.id
    have hGY : (0:ℚ) < NODE_GAP_Y := by norm_num [NODE_GAP_Y]
    obtain ⟨hb1, hb2, hb3, hb4⟩ :=
      ih (fun c hc => hsub c (by simp [hc])) x ((pn ch.id x top).2 + NODE_GAP_Y)
    have hfst : (stackChildren pn x (ch :: rest) top).1
        = (pn ch.id x top).1
          ++ (stackChildren pn x rest ((pn ch.id x top).2 + NODE_GAP_Y)).1 := rfl
    have hsnd : (stackChildren pn x (ch :: rest) top).2
        = (stackChildren pn x rest ((pn ch.id x top).2 + NODE_GAP_Y)).2 := rfl
    rw [hfst, hsnd]
    refine ⟨by linarith, ?_, ?_, ?_⟩
    · intro p hp
      rcases List.mem_append.mp hp with hp1 | hp2
      · obtain ⟨hc1, hc2⟩ := ha2 p hp1
        exact ⟨by linarith, by linarith⟩
      · obtain ⟨hc1, hc2⟩ := hb2 p hp2
        exact ⟨by linarith, by linarith⟩
    · intro p hp
      rcases List.mem_append.mp hp with hp1 | hp2
      · exact ⟨ch, by simp, ha3 p hp1⟩
      · obtain ⟨ch', hch', hd⟩ := hb3 p hp2
        exact ⟨ch', by simp [hch'], hd⟩
    · intro p hp q2 hq2 hne hpq hqp
      rcases List.mem_append.mp hp with hp1 | hp2 <;>
        rcases List.mem_append.mp hq2 with hq1 | hq22
      · exact ha4 p hp1 q2 hq1 hne hpq hqp
      · have h1 := (ha2 p hp1).2
        have h2 := (hb2 q2 hq22).1
        exact Or.inl (by linarith)
      · have h1 := (ha2 q2 hq1).2
        have h2 := (hb2 p hp2).1
        exact Or.inr (by linarith)
      · exact hb4 p hp2 q2 hq22 hne hpq hqp

/-- positionNode satisfies the subtree invariants on every node with an
adequate fuel budget in a resolved forest with nonnegative heights. -/
theorem positionNode_props (columns : List Column) (heights : String → Option ℚ)
    (hres : Resolves columns) (hh : ∀ id h, heights id = some h → 0 ≤ h) :
    ∀ f (c : Column), callOk columns f c →
      SubtreeProps columns heights (positionNode columns heights f) c := by
  intro f
  induction f with
  | zero =>
    intro c hok
    have := callOk_pos columns 0 c hok
    omega
  | succ f ih =>
    intro c hok x y
    have heff : 0 < effHeight heights c.id := effHeight_pos heights hh c.id
    cases hch : getChildren columns (some c.id) with
    | nil =>
      have hval : positionNode columns heights (f+1) c.id x y
          = ([(c.id, ⟨x, y + effHeight heights c.id / 2, effHeight heights c.id⟩)],
             y + effHeight heights c.id) := by
        simp only [positionNode, hch]
      rw [hval]
      refine ⟨le_refl _, ?_, ?_, ?_⟩
      · intro p hp
        rcases List.mem_singleton.mp hp with rfl
        constructor
        · simp only []
          linarith
        · simp only []
          linarith
      · intro p hp
        rcases List.mem_singleton.mp hp with rfl
        exact Relation.ReflTransGen.refl
      · intro p hp q2 hq2 hne _ _
        rcases List.mem_singleton.mp hp with rfl
        rcases List.mem_singleton.mp hq2 with rfl
        exact absurd rfl hne
    | cons ch0 rest0 =>
      have hsubs : ∀ ch' ∈ ch0 :: rest0,
          SubtreeProps columns heights (positionNode columns heights f) ch' := by
        intro ch' hch'
        refine ih ch' (callOk_child columns hres f c ch' hok ?_)
        rw [hch]
        exact hch'
      obtain ⟨hs1, hs2, hs3, hs4⟩ := stackChildren_props columns heights
        (positionNode columns heights f) hh (ch0 :: rest0) hsubs
        (x + NODE_WIDTH + NODE_GAP_X) y
      have hfst : (positionNode columns heights (f+1) c.id x y).1
          = (c.id, ⟨x, y + effHeight heights c.id / 2, effHeight heights c.id⟩)
            :: (stackChildren (positionNode columns heights f)
                (x + NODE_WIDTH + NODE_GAP_X) (ch0 :: rest0) y).1 := by
        simp only [positionNode, hch]
      have hsnd : (positionNode columns heights (f+1) c.id x y).2
          = max (y + effHeight heights c.id)
              ((stackChildren (positionNode columns heights f)
                (x + NODE_WIDTH + NODE_GAP_X) (ch0 :: rest0) y).2 - NODE_GAP_Y) := by
        simp only [positionNode, hch]
      rw [hfst, hsnd]
      have hmax1 := le_max_left (y + effHeight heights c.id)
        ((stackChildren (positionNode columns heights f)
          (x + NODE_WIDTH + NODE_GAP_X) (ch0 :: rest0) y).2 - NODE_GAP_Y)
      have hmax2 := le_max_right (y + effHeight heights c.id)
        ((stackChildren (positionNode columns heights f)
          (x + NODE_WIDTH + NODE_GAP_X) (ch0 :: rest0) y).2 - NODE_GAP_Y)
      refine ⟨hmax1, ?_, ?_, ?_⟩
      · intro p hp
        rcases List.mem_cons.mp hp with rfl | hp2
        · constructor
          · simp only []
            linarith
          · simp only []
            linarith
        · obtain ⟨hc1, hc2⟩ := hs2 p hp2
          exact ⟨by linarith, by linarith⟩
      · intro p hp
        rcases List.mem_cons.mp hp with rfl | hp2
        · exact Relation.ReflTransGen.refl
        · obtain ⟨ch', hch', hd⟩ := hs3 p hp2
          refine Relation.ReflTransGen.head (parentOf_of_child columns c ch' ?_) hd
          rw [hch]
          exact hch'
      · intro p hp q2 hq2 hne hpq hqp
        rcases List.mem_cons.mp hp with rfl | hp2 <;>
          rcases List.mem_cons.mp hq2 with hq1 | hq22
        · rw [hq1] at hne
          exact absurd rfl hne
        · obtain ⟨ch', hch', hd⟩ := hs3 q2 hq22
          refine absurd (Relation.ReflTransGen.head (parentOf_of_child columns c ch' ?_) hd) hpq
          rw [hch]
          exact hch'
        · obtain ⟨ch', hch', hd⟩ := hs3 p hp2
          rw [hq1] at hqp
          refine absurd (Relation.ReflTransGen.head (parentOf_of_child columns c ch' ?_) hd) hqp
          rw [hch]
          exact hch'
        · exact hs4 p hp2 q2 hq22 hne hpq hqp

/-- C2: in every forest (each column's parent chain resolves to a root)
with a nonnegative height map, calculateLayout stacks each child
subtree after the previous sibling's entire subtree plus the fixed gap
and reports a subtree bottom covering both the node and its children;
consequently the output rectangles (x to x + width, y - height/2 to
y + height/2) of any two distinct nodes that are not in the
ancestor/descendant relation never overlap vertically when they share a
column (same x). -/
theorem calculateLayout_no_vertical_overlap (columns : List Column)
    (heights : String → Option ℚ)
    (hres : Resolves columns)
    (hh : ∀ id h, heights id = some h → 0 ≤ h)
    (u v : String) (eu ev : LayoutEntry)
    (hu : (u, eu) ∈ calculateLayout columns heights)
    (hv : (v, ev) ∈ calculateLayout columns heights)
    (hne : u ≠ v) (hx : eu.x = ev.x)
    (huv : ¬Desc columns u v) (hvu : ¬Desc columns v u) :
    eu.y + eu.height/2 ≤ ev.y - ev.height/2
      ∨ ev.y + ev.height/2 ≤ eu.y - eu.height/2 := by
  have hroots : ∀ r ∈ getChildren columns none,
      SubtreeProps columns heights (positionNode columns heights (columns.length + 1)) r := by
    intro r hr
    have hrmem : r ∈ columns := List.mem_of_mem_filter hr
    exact positionNode_props columns heights hres hh (columns.length + 1) r
      (callOk_of_resolves columns hres r hrmem)
  obtain ⟨_, _, _, hsep⟩ := stackChildren_props columns heights
    (positionNode columns heights (columns.length + 1)) hh
    (getChildren columns none) hroots 0 0
  exact hsep (u, eu) hu (v, ev) hv hne huv hvu

/-- Witness for C2 on the example forest (root "a" with leaf children
"b" and "c", all default heights): "b" and "c" share column x = 600 and
their rectangles [0,200] and [250,450] are vertically separated. -/
theorem calculateLayout_no_vertical_overlap_witness :
    (("b", (⟨600, 100, 200⟩ : LayoutEntry)) ∈ calculateLayout exCols2 (fun _ => none)
      ∧ ("c", (⟨600, 350, 200⟩ : LayoutEntry)) ∈ calculateLayout exCols2 (fun _ => none)
      ∧ ("b" : String) ≠ "c")
    ∧ ((⟨600, 100, 200⟩ : LayoutEntry).y + (⟨600, 100, 200⟩ : LayoutEntry).height/2
        ≤ (⟨600, 350, 200⟩ : LayoutEntry).y - (⟨600, 350, 200⟩ : LayoutEntry).height/2
      ∨ (⟨600, 350, 200⟩ : LayoutEntry).y + (⟨600, 350, 200⟩ : LayoutEntry).height/2
        ≤ (⟨600, 100, 200⟩ : LayoutEntry).y - (⟨600, 100, 200⟩ : LayoutEntry).height/2) := by
  have hkr : getChildren exCols2 none = [mkCol "a" none] := by decide
  have hka : getChildren exCols2 (some "a")
      = [mkCol "b" (some "a"), mkCol "c" (some "a")] := by decide
  have hkb : getChildren exCols2 (some "b") = [] := by decide
  have hkc : getChildren exCols2 (some "c") = [] := by decide
  have h4 : exCols2.length + 1 = 4 := rfl
  have heval : calculateLayout exCols2 (fun _ => none)
      = [("a", ⟨0, 100, 200⟩), ("b", ⟨600, 100, 200⟩), ("c", ⟨600, 350, 200⟩)] := by
    unfold calculateLayout
    rw [h4, hkr]
    rw [stackChildren]
    simp only [mkCol]
    rw [positionNode]
    simp only [hka]
    rw [stackChildren]
    simp only [mkCol]
    rw [positionNode]
    simp only [hkb]
    rw [stackChildren]
    simp only [mkCol]
    rw [positionNode]
    simp only [hkc]
    rw [stackChildren]
    norm_num [hka, hkb, hkc, stackChildren, effHeight, NODE_DEFAULT_HEIGHT, NODE_WIDTH,
      NODE_GAP_X, NODE_GAP_Y]
  have hmb : ("b", (⟨600, 100, 200⟩ : LayoutEntry)) ∈ calculateLayout exCols2 (fun _ => none) := by
    rw [heval]; simp
  have hmc : ("c", (⟨600, 350, 200⟩ : LayoutEntry)) ∈ calculateLayout exCols2 (fun _ => none) := by
    rw [heval]; simp
  have hres : Resolves exCols2 := by
    intro c hc
    simp only [exCols2, List.mem_cons, List.not_mem_nil, or_false] at hc
    rcases hc with rfl | rfl | rfl
    · exact ⟨[], by decide⟩
    · exact ⟨[mkCol "a" none], by decide⟩
    · exact ⟨[mkCol "a" none], by decide⟩
  have hh : ∀ (id : String) (h : ℚ), (fun _ => (none : Option ℚ)) id = some h → 0 ≤ h :=
    fun _ _ h' => Option.noConfusion h'
  have hpar : ∀ a, a = "b" ∨ a = "c" → ∀ w, ¬ ParentOf exCols2 a w := by
    rintro a ha w ⟨col, hcol, hpid, _⟩
    simp only [exCols2, List.mem_cons, List.not_mem_nil, or_false] at hcol
    rcases ha with rfl | rfl <;>
      rcases hcol with rfl | rfl | rfl <;> simp [mkCol] at hpid
  have hnd1 : ¬Desc exCols2 "b" "c" := by
    intro h
    rcases h.cases_head with heq | ⟨w, hw, _⟩
    · exact absurd heq (by decide)
    · exact hpar "b" (Or.inl rfl) w hw
  have hnd2 : ¬Desc exCols2 "c" "b" := by
    intro h
    rcases h.cases_head with heq | ⟨w, hw, _⟩
    · exact absurd heq (by decide)
    · exact hpar "c" (Or.inr rfl) w hw
  refine ⟨⟨hmb, hmc, by decide⟩, ?_⟩
  exact calculateLayout_no_vertical_overlap exCols2 (fun _ => none) hres hh "b" "c"
    ⟨600, 100, 200⟩ ⟨600, 350, 200⟩ hmb hmc (by decide) rfl hnd1 hnd2

/- ------------------------------------------------------------------
C9: the layout contains exactly the reachable ids
------------------------------------------------------------------ -/

/-- The ids emitted by positionNode are exactly getDescendants —
coordinates and heights do not influence which ids are emitted. -/
theorem positionNode_ids (columns : List Column) (heights : String → Option ℚ) :
    ∀ f nodeId x startY,
      (positionNode columns heights f nodeId x startY).1.map Prod.fst
        = getDescendants columns f nodeId := by
  intro f
  induction f with
  | zero => intro nodeId x y; rfl
  | succ f ih =>
    intro nodeId x y
    have hsc : ∀ (chs : List Column) x' top,
        (stackChildren (positionNode columns heights f) x' chs top).1.map Prod.fst
          = (chs.map (fun c => getDescendants columns f c.id)).flatten := by
      intro chs
      induction chs with
      | nil => intro x' top; rfl
      | cons ch rest ihc =>
        intro x' top
        have hfst : (stackChildren (positionNode columns heights f) x' (ch :: rest) top).1
            = (positionNode columns heights f ch.id x' top).1
              ++ (stackChildren (positionNode columns heights f) x'
                  rest ((positionNode columns heights f ch.id x' top).2 + NODE_GAP_Y)).1 := rfl
        rw [hfst, List.map_append, ih, ihc, List.map_cons, List.flatten_cons]
    cases hch : getChildren columns (some nodeId) with
    | nil =>
      have h1 : (positionNode columns heights (f+1) nodeId x y).1
          = [(nodeId, ⟨x, y + effHeight heights nodeId / 2, effHeight heights nodeId⟩)] := by
        simp only [positionNode, hch]
      rw [h1]
      simp [getDescendants, hch]
    | cons ch rest =>
      have h1 : (positionNode columns heights (f+1) nodeId x y).1
          = (nodeId, ⟨x, y + effHeight heights nodeId / 2, effHeight heights nodeId⟩)
            :: (stackChildren (positionNode columns heights f)
                (x + NODE_WIDTH + NODE_GAP_X) (ch :: rest) y).1 := by
        simp only [positionNode, hch]
      rw [h1, List.map_cons, hsc]
      simp [getDescendants, hch]

/-- The ids of the stacked layout of a child list. -/
theorem stackChildren_ids (columns : List Column) (heights : String → Option ℚ) (f : Nat) :
    ∀ (chs : List Column) x top,
      (stackChildren (positionNode columns heights f) x chs top).1.map Prod.fst
        = (chs.map (fun c => getDescendants columns f c.id)).flatten := by
  intro chs
  induction chs with
  | nil => intro x top; rfl
  | cons ch rest ihc =>
    intro x top
    have hfst : (stackChildren (positionNode columns heights f) x (ch :: rest) top).1
        = (positionNode columns heights f ch.id x top).1
          ++ (stackChildren (positionNode columns heights f) x
              rest ((positionNode columns heights f ch.id x top).2 + NODE_GAP_Y)).1 := rfl
    rw [hfst, List.map_append, positionNode_ids, ihc, List.map_cons, List.flatten_cons]

/-- The id list of the layout map is the roots' descendant lists. -/
theorem layoutIds_eq (columns : List Column) (heights : String → Option ℚ) :
    layoutIds columns heights
      = ((getChildren columns none).map
          (fun r => getDescendants columns (columns.length + 1) r.id)).flatten := by
  unfold layoutIds calculateLayout
  exact stackChildren_ids columns heights (columns.length + 1) (getChildren columns none) 0 0

/-- Everything getDescendants lists is the start id or the id of some
column. -/
theorem getDescendants_mem_ids (columns : List Column) :
    ∀ f cid i, i ∈ getDescendants columns f cid → i = cid ∨ ∃ col ∈ columns, col.id = i := by
  intro f
  induction f with
  | zero => intro cid i h; simp [getDescendants] at h
  | succ f ih =>
    intro cid i h
    simp only [getDescendants, List.mem_cons, List.mem_flatten] at h
    rcases h with rfl | ⟨l0, hl0, hil⟩
    · exact Or.inl rfl
    · obtain ⟨ch, hch, rfl⟩ := List.mem_map.mp hl0
      rcases ih ch.id i hil with rfl | hex
      · refine Or.inr ?_
        have hm : ch ∈ columns ∧ ch.parentId = some cid := by
          simpa [getChildren, List.mem_filter] using hch
        exact ⟨ch, hm.1, rfl⟩
      · exact Or.inr hex

/-- Chain inversion: any id listed under a budgeted column `c` heads a
resolved chain that passes through `c`. -/
theorem getDescendants_chain (columns : List Column) (hres : Resolves columns) :
    ∀ f (c : Column), callOk columns f c → ∀ d, d ∈ getDescendants columns f c.id →
      ∃ l, upChainOk columns l = true ∧ l.head?.map Column.id = some d ∧ c ∈ l := by
  intro f
  induction f with
  | zero => intro c _ d hd; simp [getDescendants] at hd
  | succ f ih =>
    intro c hok d hd
    simp only [getDescendants, List.mem_cons, List.mem_flatten] at hd
    rcases hd with rfl | ⟨l0, hl0, hdl⟩
    · obtain ⟨q, hq, _⟩ := hok
      exact ⟨c :: q, hq, by simp, by simp⟩
    · obtain ⟨ch, hch, rfl⟩ := List.mem_map.mp hl0
      have hokch : callOk columns f ch := callOk_child columns hres f c ch hok hch
      obtain ⟨l, hl, hhd, hchl⟩ := ih ch hokch d hdl
      refine ⟨l, hl, hhd, ?_⟩
      obtain ⟨s, u, rfl⟩ := List.append_of_mem hchl
      have hsub : upChainOk columns (ch :: u) = true :=
        upChainOk_suffix columns s (ch :: u) hl (by simp)
      have hlink : ch.parentId = some c.id := by
        have hm : ch ∈ columns ∧ ch.parentId = some c.id := by
          simpa [getChildren, List.mem_filter] using hch
        exact hm.2
      cases u with
      | nil =>
        have hlast := upChainOk_last_none columns ch hsub
        rw [hlink] at hlast
        exact absurd hlast (by simp)
      | cons p u' =>
        have hp := upChainOk_link columns ch p u' hsub
        rw [hlink] at hp
        have hpid : c.id = p.id := by injection hp
        have hfp := upChainOk_head_find columns p u' (upChainOk_inner columns ch p u' hsub)
        obtain ⟨q, hq, _⟩ := hok
        have hfc := upChainOk_head_find columns c q hq
        rw [← hpid] at hfp
        obtain rfl : c = p := by rw [hfc] at hfp; exact Option.some.inj hfp
        simp

/-- Two children of one column with different ids list disjoint
descendant sets. -/
theorem getDescendants_disjoint (columns : List Column) (hres : Resolves columns)
    (f : Nat) (c : Column) (hok : callOk columns (f+1) c)
    (ch1 ch2 : Column) (h1 : ch1 ∈ getChildren columns (some c.id))
    (h2 : ch2 ∈ getChildren columns (some c.id)) (hne : ch1.id ≠ ch2.id) :
    ∀ d, d ∈ getDescendants columns f ch1.id → d ∈ getDescendants columns f ch2.id →
      False := by
  intro d hd1 hd2
  have hok1 := callOk_child columns hres f c ch1 hok h1
  have hok2 := callOk_child columns hres f c ch2 hok h2
  obtain ⟨l1, hl1, hhd1, hmem1⟩ := getDescendants_chain columns hres f ch1 hok1 d hd1
  obtain ⟨l2, hl2, hhd2, hmem2⟩ := getDescendants_chain columns hres f ch2 hok2 d hd2
  have hleq : l1 = l2 := by
    cases l1 with
    | nil => simp at hhd1
    | cons a1 t1 =>
      cases l2 with
      | nil => simp at hhd2
      | cons a2 t2 =>
        have hid : a1.id = a2.id := by
          simp only [List.head?_cons, Option.map_some] at hhd1 hhd2
          rw [Option.some.inj hhd1, Option.some.inj hhd2]
        have hf1 := upChainOk_head_find columns a1 t1 hl1
        have hf2 := upChainOk_head_find columns a2 t2 hl2
        rw [hid] at hf1
        obtain rfl : a1 = a2 := by rw [hf2] at hf1; exact (Option.some.inj hf1).symm
        rw [upChainOk_det columns t1 t2 a1 hl1 hl2]
  subst hleq
  have hnext : ∀ ch : Column, ch ∈ getChildren columns (some c.id) → ch ∈ l1 →
      ∃ s u', l1 = s ++ ch :: c :: u' ∧ upChainOk columns (c :: u') = true := by
    intro ch hch hchl
    obtain ⟨s, u, rfl⟩ := List.append_of_mem hchl
    have hsub := upChainOk_suffix columns s (ch :: u) hl1 (by simp)
    have hlink : ch.parentId = some c.id := by
      have hm : ch ∈ columns ∧ ch.parentId = some c.id := by
        simpa [getChildren, List.mem_filter] using hch
      exact hm.2
    cases u with
    | nil =>
      have hlast := upChainOk_last_none columns ch hsub
      rw [hlink] at hlast
      exact absurd hlast (by simp)
    | cons p u' =>
      have hp := upChainOk_link columns ch p u' hsub
      rw [hlink] at hp
      have hpid : c.id = p.id := by injection hp
      have hfp := upChainOk_head_find columns p u' (upChainOk_inner columns ch p u' hsub)
      obtain ⟨q, hq, _⟩ := hok
      have hfc := upChainOk_head_find columns c q hq
      rw [← hpid] at hfp
      obtain rfl : c = p := by rw [hfc] at hfp; exact Option.some.inj hfp
      exact ⟨s, u', rfl, upChainOk_inner columns ch c u' hsub⟩
  obtain ⟨s1, u1, he1, hu1⟩ := hnext ch1 h1 hmem1
  obtain ⟨s2, u2, he2, hu2⟩ := hnext ch2 h2 hmem2
  have hdet := upChainOk_det columns u1 u2 c hu1 hu2
  subst hdet
  have hlens : s1.length = s2.length := by
    have hl := congrArg List.length (he1.symm.trans he2)
    simp [List.length_append] at hl
    omega
  have htails := (List.append_inj (he1.symm.trans he2) hlens).2
  have : ch1 = ch2 := by injection htails
  exact hne (by rw [this])

/-- With unique ids, a budgeted column's descendant id list has no
duplicates. -/
theorem getDescendants_nodup (columns : List Column) (hres : Resolves columns)
    (hnd : (columns.map Column.id).Nodup) :
    ∀ f (c : Column), callOk columns f c → (getDescendants columns f c.id).Nodup := by
  intro f
  induction f with
  | zero => intro c _; simp [getDescendants]
  | succ f ih =>
    intro c hok
    simp only [getDescendants]
    refine List.nodup_cons.mpr ⟨?_, ?_⟩
    · intro hmem
      rw [List.mem_flatten] at hmem
      obtain ⟨l0, hl0, hcl⟩ := hmem
      obtain ⟨ch, hch, rfl⟩ := List.mem_map.mp hl0
      have hokch := callOk_child columns hres f c ch hok hch
      obtain ⟨l, hl, hhd, hchl⟩ := getDescendants_chain columns hres f ch hokch c.id hcl
      obtain ⟨q, hq, _⟩ := hok
      have hfc := upChainOk_head_find columns c q hq
      cases l with
      | nil => simp at hhd
      | cons a t =>
        have haid : a.id = c.id := by
          simp only [List.head?_cons, Option.map_some] at hhd
          exact Option.some.inj hhd
        have hfa := upChainOk_head_find columns a t hl
        rw [haid] at hfa
        have hca : c = a := by rw [hfc] at hfa; exact Option.some.inj hfa
        subst hca
        have hlink : ch.parentId = some c.id := by
          have hm : ch ∈ columns ∧ ch.parentId = some c.id := by
            simpa [getChildren, List.mem_filter] using hch
          exact hm.2
        rcases List.mem_cons.mp hchl with rfl | hcht
        · cases t with
          | nil =>
            have hlast := upChainOk_last_none columns ch hl
            rw [hlink] at hlast
            exact absurd hlast (by simp)
          | cons p t' =>
            have hp := upChainOk_link columns ch p t' hl
            rw [hlink] at hp
            have hpid : ch.id = p.id := by injection hp
            have hfp := upChainOk_head_find columns p t' (upChainOk_inner columns ch p t' hl)
            rw [← hpid] at hfp
            have hfch := upChainOk_head_find columns ch (p :: t') hl
            obtain rfl : ch = p := by rw [hfch] at hfp; exact Option.some.inj hfp
            have hndl := upChainOk_nodup columns (ch :: ch :: t') hl
            simp at hndl
        · obtain ⟨s, u, hsu⟩ := List.append_of_mem hcht
          have hl' : upChainOk columns (ch :: u) = true := by
            refine upChainOk_suffix columns (c :: s) (ch :: u) ?_ (by simp)
            rw [show (c :: s) ++ ch :: u = c :: (s ++ ch :: u) from by simp, ← hsu]
            exact hl
          cases u with
          | nil =>
            have hlast := upChainOk_last_none columns ch hl'
            rw [hlink] at hlast
            exact absurd hlast (by simp)
          | cons p u' =>
            have hp := upChainOk_link columns ch p u' hl'
            rw [hlink] at hp
            have hpid : c.id = p.id := by injection hp
            have hfp := upChainOk_head_find columns p u' (upChainOk_inner columns ch p u' hl')
            rw [← hpid] at hfp
            obtain rfl : c = p := by rw [hfc] at hfp; exact Option.some.inj hfp
            have hndl := upChainOk_nodup columns (c :: t) hl
            have hct : c ∈ t := by
              rw [hsu]
              exact List.mem_append.mpr (Or.inr (by simp))
            exact (List.nodup_cons.mp hndl).1 hct
    · rw [List.nodup_flatten]
      constructor
      · intro l0 hl0
        obtain ⟨ch, hch, rfl⟩ := List.mem_map.mp hl0
        exact ih ch (callOk_child columns hres f c ch hok hch)
      · rw [List.pairwise_map]
        have hpwcols : columns.Pairwise (fun a b : Column => a.id ≠ b.id) := by
          rw [List.Nodup, List.pairwise_map] at hnd
          exact hnd
        have hpw : (getChildren columns (some c.id)).Pairwise
            (fun a b : Column => a.id ≠ b.id) :=
          hpwcols.sublist (List.filter_sublist columns)
        refine List.Pairwise.imp_of_mem ?_ hpw
        intro a b ha hb hne
        intro d hda hdb
        exact getDescendants_disjoint columns hres f c hok a b ha hb hne d hda hdb

/-- The last element of a resolved chain is a root. -/
theorem upChainOk_getLast_root (columns : List Column) :
    ∀ q (hne : q ≠ []), upChainOk columns q = true → (q.getLast hne).parentId = none := by
  intro q
  induction q with
  | nil => intro hne; exact absurd rfl hne
  | cons c t ih =>
    intro hne h
    cases t with
    | nil => simpa [List.getLast] using upChainOk_last_none columns c h
    | cons p rest =>
      have hr := ih (by simp) (upChainOk_inner columns c p rest h)
      simpa [List.getLast] using hr

/-- A resolved chain contains at most one root. -/
theorem chain_root_unique (columns : List Column) :
    ∀ q, upChainOk columns q = true → ∀ r1 r2 : Column, r1 ∈ q → r2 ∈ q →
      r1.parentId = none → r2.parentId = none → r1 = r2 := by
  intro q
  induction q with
  | nil => intro _ r1 r2 h1; simp at h1
  | cons c t ih =>
    intro h r1 r2 h1 h2 hp1 hp2
    cases t with
    | nil =>
      simp only [List.mem_singleton] at h1 h2
      rw [h1, h2]
    | cons p rest =>
      have hlink := upChainOk_link columns c p rest h
      have hinner := upChainOk_inner columns c p rest h
      rcases List.mem_cons.mp h1 with rfl | h1t
      · rw [hp1] at hlink
        exact absurd hlink (by simp)
      · rcases List.mem_cons.mp h2 with rfl | h2t
        · rw [hp2] at hlink
          exact absurd hlink (by simp)
        · exact ih hinner r1 r2 h1t h2t hp1 hp2

/-- With unique ids, every column is what its own id looks up to. -/
theorem findColumn_self_of_nodup (columns : List Column)
    (hnd : (columns.map Column.id).Nodup) :
    ∀ c ∈ columns, findColumn columns c.id = some c := by
  induction columns with
  | nil => intro c hc; simp at hc
  | cons a rest ih =>
    intro c hc
    simp only [List.map_cons, List.nodup_cons] at hnd
    rcases List.mem_cons.mp hc with rfl | hcr
    · simp [findColumn]
    · have hne : ¬(a.id = c.id) := by
        intro he
        exact hnd.1 (he ▸ List.mem_map_of_mem Column.id hcr)
      have hrec := ih hnd.2 c hcr
      unfold findColumn at hrec ⊢
      rw [List.find?_cons, decide_eq_false hne]
      exact hrec

/-- With unique ids, every downward-reachable target of a root has a
resolved chain. -/
theorem chain_of_desc_root (columns : List Column) (hnd : (columns.map Column.id).Nodup)
    (r : Column) (hr : r ∈ columns) (hrroot : r.parentId = none) :
    ∀ d, Desc columns r.id d →
      ∃ (cd : Column) (q : List Column), cd.id = d ∧ upChainOk columns (cd :: q) = true := by
  intro d hdesc
  induction hdesc with
  | refl =>
    refine ⟨r, [], rfl, ?_⟩
    simp only [upChainOk, Bool.and_eq_true, decide_eq_true_eq]
    exact ⟨findColumn_self_of_nodup columns hnd r hr, hrroot⟩
  | tail hab hbc ih =>
    obtain ⟨cb, q, hcbid, hq⟩ := ih
    obtain ⟨cd, hcdmem, hcdpar, hcdid⟩ := hbc
    refine ⟨cd, cb :: q, hcdid, ?_⟩
    simp only [upChainOk, Bool.and_eq_true, decide_eq_true_eq]
    exact ⟨⟨findColumn_self_of_nodup columns hnd cd hcdmem, by rw [hcdpar, hcbid]⟩, hq⟩

/-- Two resolved chains whose heads carry the same id are equal. -/
theorem upChainOk_det_head_id (columns : List Column) (l1 l2 : List Column) (d : String)
    (h1 : upChainOk columns l1 = true) (h2 : upChainOk columns l2 = true)
    (hd1 : l1.head?.map Column.id = some d) (hd2 : l2.head?.map Column.id = some d) :
    l1 = l2 := by
  cases l1 with
  | nil => simp at hd1
  | cons a1 t1 =>
    cases l2 with
    | nil => simp at hd2
    | cons a2 t2 =>
      have hid : a1.id = a2.id := by
        simp only [List.head?_cons, Option.map_some] at hd1 hd2
        rw [Option.some.inj hd1, Option.some.inj hd2]
      have hf1 := upChainOk_head_find columns a1 t1 h1
      have hf2 := upChainOk_head_find columns a2 t2 h2
      rw [hid] at hf1
      obtain rfl : a1 = a2 := by rw [hf2] at hf1; exact (Option.some.inj hf1).symm
      rw [upChainOk_det columns t1 t2 a1 h1 h2]

/-- C9: with unique column ids, (i) when every non-null parentId
references an existing column and the parent links are acyclic (every
chain resolves to a root), the computed layout map carries exactly one
entry per column id — every column's id occurs, no id occurs twice, and
no stale id occurs; and (ii) a column whose parent chain does not
resolve to a root receives no layout entry (and is consequently not
rendered, since the renderer skips columns without one). -/
theorem calculateLayout_complete_ids (columns : List Column) (heights : String → Option ℚ)
    (hnd : (columns.map Column.id).Nodup) :
    (Resolves columns →
      (∀ c ∈ columns, c.id ∈ layoutIds columns heights)
      ∧ (layoutIds columns heights).Nodup
      ∧ (∀ i ∈ layoutIds columns heights, ∃ c ∈ columns, c.id = i))
    ∧ (∀ c ∈ columns, (¬ ∃ q, upChainOk columns (c :: q) = true) →
        c.id ∉ layoutIds columns heights) := by
  constructor
  · intro hres
    refine ⟨?_, ?_, ?_⟩
    · intro c hc
      obtain ⟨q, hq⟩ := hres c hc
      have hne : (c :: q) ≠ [] := by simp
      set l := c :: q with hl
      have hroot := upChainOk_getLast_root columns l hne hq
      have hrmem : l.getLast hne ∈ columns :=
        upChainOk_mem columns l hq _ (List.getLast_mem hne)
      have hrchild : l.getLast hne ∈ getChildren columns none := by
        simp [getChildren, List.mem_filter, hrmem, hroot]
      have hsingle : upChainOk columns [l.getLast hne] = true := by
        refine upChainOk_suffix columns l.dropLast [l.getLast hne] ?_ (by simp)
        rw [List.dropLast_append_getLast hne]
        exact hq
      have hcall : callOk columns (columns.length + 1) (l.getLast hne) :=
        ⟨[], hsingle, by omega⟩
      have hchain : upChainOk columns (l.dropLast ++ (l.getLast hne) :: []) = true := by
        rw [show (l.getLast hne) :: [] = [l.getLast hne] from rfl,
          List.dropLast_append_getLast hne]
        exact hq
      have hhead : (l.dropLast ++ (l.getLast hne) :: []).head? = some c := by
        rw [show (l.getLast hne) :: [] = [l.getLast hne] from rfl,
          List.dropLast_append_getLast hne, hl]
        rfl
      have hmem := chain_head_mem_getDescendants columns hres l.dropLast (l.getLast hne) []
        (columns.length + 1) c hchain hcall hhead
      rw [layoutIds_eq, List.mem_flatten]
      exact ⟨_, List.mem_map_of_mem _ hrchild, hmem⟩
    · rw [layoutIds_eq, List.nodup_flatten]
      constructor
      · intro l0 hl0
        obtain ⟨r, hr, rfl⟩ := List.mem_map.mp hl0
        exact getDescendants_nodup columns hres hnd (columns.length + 1) r
          (callOk_of_resolves columns hres r (List.mem_of_mem_filter hr))
      · rw [List.pairwise_map]
        have hpwcols : columns.Pairwise (fun a b : Column => a.id ≠ b.id) := by
          rw [List.Nodup, List.pairwise_map] at hnd
          exact hnd
        have hpw : (getChildren columns none).Pairwise (fun a b : Column => a.id ≠ b.id) :=
          hpwcols.sublist (List.filter_sublist columns)
        refine List.Pairwise.imp_of_mem ?_ hpw
        intro r1 r2 hr1 hr2 hne d hd1 hd2
        have hcall1 := callOk_of_resolves columns hres r1 (List.mem_of_mem_filter hr1)
        have hcall2 := callOk_of_resolves columns hres r2 (List.mem_of_mem_filter hr2)
        obtain ⟨l1, hl1, hhd1, hm1⟩ :=
          getDescendants_chain columns hres (columns.length + 1) r1 hcall1 d hd1
        obtain ⟨l2, hl2, hhd2, hm2⟩ :=
          getDescendants_chain columns hres (columns.length + 1) r2 hcall2 d hd2
        obtain rfl : l1 = l2 := upChainOk_det_head_id columns l1 l2 d hl1 hl2 hhd1 hhd2
        have hr1root : r1.parentId = none := by
          have hm := List.mem_filter.mp hr1
          simpa using hm.2
        have hr2root : r2.parentId = none := by
          have hm := List.mem_filter.mp hr2
          simpa using hm.2
        exact hne (congrArg Column.id
          (chain_root_unique columns l1 hl1 r1 r2 hm1 hm2 hr1root hr2root))
    · intro i hi
      rw [layoutIds_eq, List.mem_flatten] at hi
      obtain ⟨l0, hl0, hil⟩ := hi
      obtain ⟨r, hr, rfl⟩ := List.mem_map.mp hl0
      rcases getDescendants_mem_ids columns (columns.length + 1) r.id i hil with rfl | hex
      · exact ⟨r, List.mem_of_mem_filter hr, rfl⟩
      · exact hex
  · intro c hc hnochain hmem
    rw [layoutIds_eq, List.mem_flatten] at hmem
    obtain ⟨l0, hl0, hil⟩ := hmem
    obtain ⟨r, hr, rfl⟩ := List.mem_map.mp hl0
    have hdesc := getDescendants_desc columns (columns.length + 1) r.id c.id hil
    have hrroot : r.parentId = none := by
      have hm := List.mem_filter.mp hr
      simpa using hm.2
    obtain ⟨cd, q, hcdid, hq⟩ := chain_of_desc_root columns hnd r
      (List.mem_of_mem_filter hr) hrroot c.id hdesc
    have hfcd : findColumn columns cd.id = some cd := upChainOk_head_find columns cd q hq
    have hfc : findColumn columns c.id = some c := findColumn_self_of_nodup columns hnd c hc
    rw [hcdid] at hfcd
    have hccd : c = cd := by rw [hfc] at hfcd; exact Option.some.inj hfcd
    subst hccd
    exact hnochain ⟨q, hq⟩

/-- Witness for C9 on a list with unique ids where "z" has a dangling
parent "ghost": its id gets no layout entry. -/
theorem calculateLayout_complete_ids_witness :
    (exCols9.map Column.id).Nodup
    ∧ "z" ∉ layoutIds exCols9 (fun _ => none) := by
  have h := calculateLayout_complete_ids exCols9 (fun _ => none) (by decide)
  refine ⟨by decide, ?_⟩
  refine h.2 (mkCol "z" (some "ghost")) (by decide) ?_
  rintro ⟨q, hq⟩
  cases q with
  | nil =>
    have hlast := upChainOk_last_none exCols9 (mkCol "z" (some "ghost")) hq
    simp [mkCol] at hlast
  | cons p q' =>
    have hlink := upChainOk_link exCols9 (mkCol "z" (some "ghost")) p q' hq
    have hpid : p.id = "ghost" := by
      simp [mkCol] at hlink
      exact hlink.symm
    have hfind := upChainOk_head_find exCols9 p q'
      (upChainOk_inner exCols9 (mkCol "z" (some "ghost")) p q' hq)
    rw [hpid] at hfind
    have hnone : findColumn exCols9 "ghost" = none := by decide
    rw [hnone] at hfind
    exact Option.noConfusion hfind

/- ------------------------------------------------------------------
C5: handleCloseColumn
------------------------------------------------------------------ -/

/-- C5 (amended): in a resolved forest (acyclic parent links resolving
to roots, ids unique per the data model), closing a non-root column
(parentId present and nonempty — the only case the UI wires, since
roots get no close button) removes exactly the closed column and its
descendants from the column list, the height map and the offset map,
leaving every other entry of all three unchanged; the selection is
reassigned to the closed column's parent when it pointed into the
deleted subtree and kept otherwise, and in both cases it references an
existing column afterwards.  (As stated the claim fails when the closed
column is a root: the source then reads `columns[0].id` of the
pre-close list, which may be the deleted root itself.) -/
theorem handleCloseColumn_deletes_subtree (s : CloseState) (columnId : String) (c : Column)
    (hres : Resolves s.columns) (hc : c ∈ s.columns) (hcid : c.id = columnId)
    (pid : String) (hpid : c.parentId = some pid) (hpidne : pid ≠ "")
    (hsel : ∃ sc ∈ s.columns, sc.id = s.selectedColumnId) :
    (∀ d : Column, d ∈ (handleCloseColumn s columnId).columns
        ↔ (d ∈ s.columns ∧ ¬ Desc s.columns columnId d.id))
    ∧ (∀ i : String,
        (Desc s.columns columnId i →
          (handleCloseColumn s columnId).nodeHeights i = none
          ∧ (handleCloseColumn s columnId).nodeOffsets i = none)
        ∧ (¬ Desc s.columns columnId i →
          (handleCloseColumn s columnId).nodeHeights i = s.nodeHeights i
          ∧ (handleCloseColumn s columnId).nodeOffsets i = s.nodeOffsets i))
    ∧ (Desc s.columns columnId s.selectedColumnId →
        (handleCloseColumn s columnId).selectedColumnId = pid)
    ∧ (¬ Desc s.columns columnId s.selectedColumnId →
        (handleCloseColumn s columnId).selectedColumnId = s.selectedColumnId)
    ∧ (∃ sc ∈ (handleCloseColumn s columnId).columns,
        sc.id = (handleCloseColumn s columnId).selectedColumnId) := by
  subst hcid
  have hcall := callOk_of_resolves s.columns hres c hc
  have hchar : ∀ d, d ∈ getDescendants s.columns (s.columns.length + 1) c.id
      ↔ Desc s.columns c.id d :=
    fun d => ⟨getDescendants_desc s.columns _ c.id d,
      desc_mem_getDescendants s.columns hres c _ hcall d⟩
  have hfindc : findColumn s.columns c.id = some c := by
    obtain ⟨q, hq⟩ := hres c hc
    exact upChainOk_head_find s.columns c q hq
  have hcols : (handleCloseColumn s c.id).columns
      = s.columns.filter (fun d =>
          !decide (d.id ∈ getDescendants s.columns (s.columns.length + 1) c.id)) := rfl
  have hhei : ∀ i, (handleCloseColumn s c.id).nodeHeights i
      = if i ∈ getDescendants s.columns (s.columns.length + 1) c.id then none
        else s.nodeHeights i := fun _ => rfl
  have hoff : ∀ i, (handleCloseColumn s c.id).nodeOffsets i
      = if i ∈ getDescendants s.columns (s.columns.length + 1) c.id then none
        else s.nodeOffsets i := fun _ => rfl
  have h1 : ∀ d : Column, d ∈ (handleCloseColumn s c.id).columns
      ↔ (d ∈ s.columns ∧ ¬ Desc s.columns c.id d.id) := by
    intro d
    rw [hcols, List.mem_filter]
    simp only [Bool.not_eq_true', decide_eq_false_iff_not]
    exact and_congr_right (fun _ => by rw [hchar d.id])
  have h2 : ∀ i : String,
      (Desc s.columns c.id i →
        (handleCloseColumn s c.id).nodeHeights i = none
        ∧ (handleCloseColumn s c.id).nodeOffsets i = none)
      ∧ (¬ Desc s.columns c.id i →
        (handleCloseColumn s c.id).nodeHeights i = s.nodeHeights i
        ∧ (handleCloseColumn s c.id).nodeOffsets i = s.nodeOffsets i) := by
    intro i
    constructor
    · intro hd
      have hm := (hchar i).mpr hd
      rw [hhei, hoff, if_pos hm, if_pos hm]
      exact ⟨rfl, rfl⟩
    · intro hd
      have hm : i ∉ getDescendants s.columns (s.columns.length + 1) c.id := by
        rw [hchar i]
        exact hd
      rw [hhei, hoff, if_neg hm, if_neg hm]
      exact ⟨rfl, rfl⟩
  have hseldes : Desc s.columns c.id s.selectedColumnId →
      (handleCloseColumn s c.id).selectedColumnId = pid := by
    intro hd
    have hm := (hchar s.selectedColumnId).mpr hd
    show (if s.selectedColumnId ∈ getDescendants s.columns (s.columns.length + 1) c.id then
        match findColumn s.columns c.id with
        | some col =>
          if jsTruthy col.parentId then col.parentId.getD ""
          else ((s.columns.head?).map Column.id).getD s.selectedColumnId
        | none => ((s.columns.head?).map Column.id).getD s.selectedColumnId
      else s.selectedColumnId) = pid
    rw [if_pos hm, hfindc]
    simp only [hpid, jsTruthy]
    rw [decide_eq_false hpidne]
    rfl
  have hselkeep : ¬ Desc s.columns c.id s.selectedColumnId →
      (handleCloseColumn s c.id).selectedColumnId = s.selectedColumnId := by
    intro hd
    have hm : s.selectedColumnId ∉ getDescendants s.columns (s.columns.length + 1) c.id := by
      rw [hchar s.selectedColumnId]
      exact hd
    show (if s.selectedColumnId ∈ getDescendants s.columns (s.columns.length + 1) c.id then
        match findColumn s.columns c.id with
        | some col =>
          if jsTruthy col.parentId then col.parentId.getD ""
          else ((s.columns.head?).map Column.id).getD s.selectedColumnId
        | none => ((s.columns.head?).map Column.id).getD s.selectedColumnId
      else s.selectedColumnId) = s.selectedColumnId
    rw [if_neg hm]
  refine ⟨h1, h2, hseldes, hselkeep, ?_⟩
  by_cases hdes : Desc s.columns c.id s.selectedColumnId
  · obtain ⟨q, hq⟩ := hres c hc
    cases q with
    | nil =>
      have hlast := upChainOk_last_none s.columns c hq
      rw [hpid] at hlast
      exact absurd hlast (by simp)
    | cons cp q' =>
      have hlink := upChainOk_link s.columns c cp q' hq
      rw [hpid] at hlink
      have hcpid : pid = cp.id := by injection hlink
      have hcpmem : cp ∈ s.columns := upChainOk_mem s.columns _ hq cp (by simp)
      have hcp' : upChainOk s.columns (cp :: q') = true :=
        upChainOk_inner s.columns c cp q' hq
      have hnotdesc : ¬ Desc s.columns c.id cp.id := by
        intro hd
        obtain ⟨w, hd2, hchain, hhd, hid2⟩ :=
          desc_chain s.columns hres c (cp :: q') hq cp.id hd
        have hhd2 : (w ++ c :: cp :: q').head?.map Column.id = some cp.id := by
          rw [hhd]
          simp [hid2]
        have heq := upChainOk_det_head_id s.columns (w ++ c :: cp :: q') (cp :: q') cp.id
          hchain hcp' hhd2 (by simp)
        have hcin : c ∈ cp :: q' := by
          rw [← heq]
          exact List.mem_append.mpr (Or.inr (by simp))
        have hnd2 := upChainOk_nodup s.columns (c :: cp :: q') hq
        exact (List.nodup_cons.mp hnd2).1 hcin
      refine ⟨cp, ?_, ?_⟩
      · exact (h1 cp).mpr ⟨hcpmem, hnotdesc⟩
      · rw [hseldes hdes, hcpid]
  · obtain ⟨sc, hscmem, hscid⟩ := hsel
    refine ⟨sc, ?_, ?_⟩
    · refine (h1 sc).mpr ⟨hscmem, ?_⟩
      rw [hscid]
      exact hdes
    · rw [hselkeep hdes, hscid]

/-- Witness for C5's amended claim: closing "b" (child of root "a",
with grandchild "c" and unrelated sibling "d") while "c" is selected
reassigns the selection to "a", which still exists. -/
theorem handleCloseColumn_deletes_subtree_witness :
    (handleCloseColumn ⟨exCols5, fun _ => none, fun _ => none, "c"⟩ "b").selectedColumnId = "a"
    ∧ ∃ sc ∈ (handleCloseColumn ⟨exCols5, fun _ => none, fun _ => none, "c"⟩ "b").columns,
        sc.id = (handleCloseColumn ⟨exCols5, fun _ => none, fun _ => none, "c"⟩
          "b").selectedColumnId := by
  have hres : Resolves exCols5 := by
    intro c hc
    simp only [exCols5, List.mem_cons, List.not_mem_nil, or_false] at hc
    rcases hc with rfl | rfl | rfl | rfl
    · exact ⟨[], by decide⟩
    · exact ⟨[mkCol "a" none], by decide⟩
    · exact ⟨[mkCol "b" (some "a"), mkCol "a" none], by decide⟩
    · exact ⟨[mkCol "a" none], by decide⟩
  have hdesc : Desc exCols5 "b" "c" :=
    Relation.ReflTransGen.single ⟨mkCol "c" (some "b"), by decide, rfl, rfl⟩
  have h := handleCloseColumn_deletes_subtree ⟨exCols5, fun _ => none, fun _ => none, "c"⟩
    "b" (mkCol "b" (some "a")) hres (by decide) rfl "a" rfl (by decide)
    ⟨mkCol "c" (some "b"), by decide, rfl⟩
  exact ⟨h.2.2.1 hdesc, h.2.2.2.2⟩

/-- C5 counterexample: the claim as stated fails on a root — closing
the only root "a" while it is selected leaves the selection at "a",
which no longer references any existing column (the column list is
empty afterwards). -/
theorem handleCloseColumn_root_selection_cex :
    (handleCloseColumn ⟨exCols5cex, fun _ => none, fun _ => none, "a"⟩ "a").columns = []
    ∧ (handleCloseColumn ⟨exCols5cex, fun _ => none, fun _ => none, "a"⟩
        "a").selectedColumnId = "a"
    ∧ ((handleCloseColumn ⟨exCols5cex, fun _ => none, fun _ => none, "a"⟩ "a").columns.any
        (fun sc => decide (sc.id = (handleCloseColumn
          ⟨exCols5cex, fun _ => none, fun _ => none, "a"⟩ "a").selectedColumnId))) = false :=
  ⟨by decide, by decide, by decide⟩

end DeepDive
